import Mathlib

/-!
Verification of the isolator expression-quantification core (sampler.cpp,
fragment_model.cpp) against its natural-language specification.

Machine integers are modelled as `Nat`/`Int` with explicit `% 2^w` where wrap
matters; floats are modelled as exact rationals `ℚ`; the hat-trie and other
containers are modelled as total maps / lists.
-/

namespace Isolator

/-! ### AlnCountTrie (fragment_model.cpp, lines 20-66)

The hat-trie maps a read id to an `unsigned long` slot, zero-initialized on
first access (`hattrie_get` semantics); `get` uses `hattrie_tryget` and
returns (0,0) for an absent id, which coincides with decoding a zero slot, so
the state is a total map with default 0.  Bit operations on the nonnegative
slot value translate as: `x & 0xffff` is `x % 2^16`, `x >> 16` is `x / 2^16`,
`x & 0xffff0000` is `x / 2^16 % 2^16 * 2^16`, and `|` of values with disjoint
bit ranges is `+`. -/

/-- Slot update performed by `AlnCountTrie::inc_mate1`:
`cnt = ((*val & 0xffff) + 1) & 0xffff; *val = (*val & 0xffff0000) | cnt`. -/
def incMate1Val (val : ℕ) : ℕ :=
  val / 65536 % 65536 * 65536 + (val % 65536 + 1) % 65536

/-- Slot update performed by `AlnCountTrie::inc_mate2`:
`cnt = ((*val >> 16) + 1) & 0xffff; *val = (cnt << 16) | (*val & 0xffff)`. -/
def incMate2Val (val : ℕ) : ℕ :=
  (val / 65536 + 1) % 65536 * 65536 + val % 65536

/-- Slot decoding performed by `AlnCountTrie::get`:
`MateCount(*val & 0xffff, (*val >> 16) & 0xffff)`, (0,0) when absent. -/
def getVal (val : ℕ) : ℕ × ℕ :=
  (val % 65536, val / 65536 % 65536)

/-- State of an `AlnCountTrie`: read id to slot value, absent ids hold 0. -/
def AlnCountTrie := String → ℕ

/-- Freshly created trie: every id absent, i.e. slot 0. -/
def AlnCountTrie.init : AlnCountTrie := fun _ => 0

/-- Function `AlnCountTrie::inc_mate1` on the trie state. -/
def AlnCountTrie.incMate1 (t : AlnCountTrie) (id : String) : AlnCountTrie :=
  fun s => if s = id then incMate1Val (t id) else t s

/-- Function `AlnCountTrie::inc_mate2` on the trie state. -/
def AlnCountTrie.incMate2 (t : AlnCountTrie) (id : String) : AlnCountTrie :=
  fun s => if s = id then incMate2Val (t id) else t s

/-- Function `AlnCountTrie::get` on the trie state. -/
def AlnCountTrie.get (t : AlnCountTrie) (id : String) : ℕ × ℕ :=
  getVal (t id)

/-- An increment operation: `(true, id)` is `inc_mate1(id)`, `(false, id)` is
`inc_mate2(id)`. -/
def applyOp (t : AlnCountTrie) (op : Bool × String) : AlnCountTrie :=
  if op.1 then t.incMate1 op.2 else t.incMate2 op.2

/-- Trie state after a sequence of increment operations, in stream order. -/
def applyOps (ops : List (Bool × String)) : AlnCountTrie :=
  ops.foldl applyOp AlnCountTrie.init

/-- Number of `inc_mate1` calls for a given id in an operation sequence. -/
def mate1Count (ops : List (Bool × String)) (id : String) : ℕ :=
  ops.countP (fun op => op.1 && op.2 == id)

/-- Number of `inc_mate2` calls for a given id in an operation sequence. -/
def mate2Count (ops : List (Bool × String)) (id : String) : ℕ :=
  ops.countP (fun op => !op.1 && op.2 == id)

/-- Encoding of a pair of counters in one slot: mate2 count in bits 16..31,
mate1 count in bits 0..15. -/
def encodeVal (a b : ℕ) : ℕ := b % 65536 * 65536 + a % 65536

theorem encodeVal_mod (a b : ℕ) : encodeVal a b % 65536 = a % 65536 := by
  unfold encodeVal
  omega

theorem encodeVal_div (a b : ℕ) : encodeVal a b / 65536 % 65536 = b % 65536 := by
  unfold encodeVal
  omega

theorem incMate1Val_encode (a b : ℕ) :
    incMate1Val (encodeVal a b) = encodeVal (a + 1) b := by
  unfold incMate1Val encodeVal
  omega

theorem incMate2Val_encode (a b : ℕ) :
    incMate2Val (encodeVal a b) = encodeVal a (b + 1) := by
  unfold incMate2Val encodeVal
  omega

theorem applyOps_encode (ops : List (Bool × String)) (id : String) :
    applyOps ops id = encodeVal (mate1Count ops id) (mate2Count ops id) := by
  induction ops using List.reverseRecOn with
  | nil => simp [applyOps, AlnCountTrie.init, mate1Count, mate2Count, encodeVal]
  | append_singleton ops op ih =>
    have hfold : applyOps (ops ++ [op]) = applyOp (applyOps ops) op := by
      simp [applyOps]
    rw [hfold]
    rcases op with ⟨b, s⟩
    by_cases hid : s = id
    · subst hid
      cases b with
      | true =>
        simp only [applyOp, AlnCountTrie.incMate1, if_pos rfl, if_true, ih]
        rw [incMate1Val_encode]
        simp [mate1Count, mate2Count, List.countP_append, List.countP_cons]
      | false =>
        simp only [applyOp, AlnCountTrie.incMate2, if_pos rfl,
          Bool.false_eq_true, if_false, ih]
        rw [incMate2Val_encode]
        simp [mate1Count, mate2Count, List.countP_append, List.countP_cons]
    · have h1 : mate1Count (ops ++ [(b, s)]) id = mate1Count ops id := by
        simp [mate1Count, List.countP_append, List.countP_cons, hid]
      have h2 : mate2Count (ops ++ [(b, s)]) id = mate2Count ops id := by
        simp [mate2Count, List.countP_append, List.countP_cons, hid]
      rw [h1, h2, ← ih]
      have hid2 : ¬id = s := fun h => hid h.symm
      cases b <;>
        simp [applyOp, AlnCountTrie.incMate1, AlnCountTrie.incMate2, hid2]

/-- C10: for every sequence of `inc_mate1`/`inc_mate2` calls, `get(id)`
returns the pair (number of `inc_mate1(id)` calls mod 2^16, number of
`inc_mate2(id)` calls mod 2^16): each counter is a 16-bit field wrapping at
65536, incrementing one mate's counter never changes the other mate's counter
for the same id, and `get` on a never-incremented id returns (0, 0). -/
theorem alnCountTrie_get_counts (ops : List (Bool × String)) (id : String) :
    (applyOps ops).get id =
      (mate1Count ops id % 65536, mate2Count ops id % 65536) := by
  unfold AlnCountTrie.get getVal
  rw [applyOps_encode]
  rw [encodeVal_mod, encodeVal_div]

/-! ### sam_scan sort-order check (fragment_model.cpp lines 304-328,
sampler.cpp lines 602-651)

The scan loop reads records in stream order; a record is skipped when
`b->core.flag & BAM_FUNMAP || b->core.tid < 0`; otherwise the run aborts when
`b->core.tid < last_tid || (b->core.tid == last_tid && b->core.pos < last_pos)`
with `last_tid`/`last_pos` initialized to -1 and updated from each mapped
record.  (In sampler.cpp the `last_pos = -1` reset inside the
sequence-loading branch is immediately overwritten by `last_pos =
b->core.pos`, so both scans perform the identical check.)  Only the ordering
logic is modelled; interval dispatch does not affect the abort. -/

/-- Fields of a stream record relevant to the sort-order check. -/
structure SamRecord where
  unmapped : Bool
  tid : Int
  pos : Int
  deriving DecidableEq, Repr

/-- Record skipped by the scan: negation of
`b->core.flag & BAM_FUNMAP || b->core.tid < 0`. -/
def SamRecord.mapped (b : SamRecord) : Prop :=
  b.unmapped = false ∧ 0 ≤ b.tid

instance (b : SamRecord) : Decidable b.mapped := by
  unfold SamRecord.mapped
  infer_instance

/-- Condition of the fatal sort-order abort, tested against the previous
mapped record's reference id and position. -/
def samOrderViolation (lastTid lastPos : Int) (b : SamRecord) : Prop :=
  b.tid < lastTid ∨ (b.tid = lastTid ∧ b.pos < lastPos)

instance (lastTid lastPos : Int) (b : SamRecord) :
    Decidable (samOrderViolation lastTid lastPos b) := by
  unfold samOrderViolation
  infer_instance

/-- Scan loop of `sam_scan`, tracking whether the sort-order abort fires:
returns `true` exactly when `Logger::abort` would be reached. -/
def samScanAborts : List SamRecord → Int → Int → Bool
  | [], _, _ => false
  | b :: rest, lastTid, lastPos =>
    if ¬b.mapped then samScanAborts rest lastTid lastPos
    else if samOrderViolation lastTid lastPos b then true
    else samScanAborts rest b.tid b.pos

/-- Sortedness of a record stream relative to an initial (last_tid, last_pos)
state: no record triggers the abort condition, each record becoming the new
state for its successors. -/
def sortedFrom : Int → Int → List SamRecord → Prop
  | _, _, [] => True
  | lastTid, lastPos, b :: rest =>
    ¬samOrderViolation lastTid lastPos b ∧ sortedFrom b.tid b.pos rest

/-- Adjacent-pair order between consecutive mapped records, as the claim
states it: reference id must not decrease, nor position within equal
reference ids. -/
def samOrderOk (a b : SamRecord) : Prop :=
  ¬samOrderViolation a.tid a.pos b

theorem samScanAborts_filter (l : List SamRecord) (lastTid lastPos : Int) :
    samScanAborts l lastTid lastPos =
      samScanAborts (l.filter (fun b => decide b.mapped)) lastTid lastPos := by
  induction l generalizing lastTid lastPos with
  | nil => rfl
  | cons b rest ih =>
    by_cases hm : b.mapped
    · rw [List.filter_cons_of_pos (by simpa using hm)]
      by_cases hv : samOrderViolation lastTid lastPos b
      · simp only [samScanAborts, if_neg (not_not_intro hm), if_pos hv]
      · simp only [samScanAborts, if_neg (not_not_intro hm), if_neg hv]
        exact ih b.tid b.pos
    · rw [List.filter_cons_of_neg (by simpa using hm)]
      simp only [samScanAborts, if_pos hm]
      exact ih lastTid lastPos

theorem samScanAborts_mapped (l : List SamRecord) (lastTid lastPos : Int)
    (hmapped : ∀ b ∈ l, b.mapped) :
    samScanAborts l lastTid lastPos = false ↔ sortedFrom lastTid lastPos l := by
  induction l generalizing lastTid lastPos with
  | nil => simp [samScanAborts, sortedFrom]
  | cons b rest ih =>
    have hb := hmapped b (List.mem_cons_self b rest)
    by_cases hv : samOrderViolation lastTid lastPos b
    · simp only [samScanAborts, if_neg (not_not_intro hb), if_pos hv,
        sortedFrom]
      constructor
      · intro h; cases h
      · intro ⟨hok, _⟩; exact absurd hv hok
    · simp only [samScanAborts, if_neg (not_not_intro hb), if_neg hv,
        sortedFrom]
      rw [ih b.tid b.pos (fun x hx => hmapped x (List.mem_cons_of_mem b hx))]
      constructor
      · intro h; exact ⟨hv, h⟩
      · intro ⟨_, h⟩; exact h

theorem sortedFrom_chain (l : List SamRecord) (a : SamRecord) :
    sortedFrom a.tid a.pos l ↔ List.Chain samOrderOk a l := by
  induction l generalizing a with
  | nil => simp [sortedFrom, List.Chain.nil]
  | cons b rest ih =>
    rw [List.chain_cons]
    simp only [sortedFrom]
    rw [ih b]
    exact and_congr_left (fun _ => Iff.rfl)

/-- C9: the alignment-stream scan aborts with the fatal sort-order error if
and only if some mapped record breaks the (reference id, position) order
relative to the previous mapped record; unmapped records are skipped and
never trigger the abort (the scan of a stream aborts exactly when the scan of
its mapped subsequence does). -/
theorem sam_scan_abort_iff_unsorted (l : List SamRecord) :
    samScanAborts l (-1) (-1) = true ↔
      ¬List.Chain' samOrderOk (l.filter (fun b => decide b.mapped)) := by
  rw [samScanAborts_filter]
  have hmapped : ∀ b ∈ l.filter (fun b => decide b.mapped), b.mapped :=
    fun b hb => by simpa using (List.mem_filter.mp hb).2
  have key : samScanAborts (l.filter (fun b => decide b.mapped)) (-1) (-1) = false ↔
      List.Chain' samOrderOk (l.filter (fun b => decide b.mapped)) := by
    rw [samScanAborts_mapped _ _ _ hmapped]
    cases hfm : l.filter (fun b => decide b.mapped) with
    | nil => simp [sortedFrom, List.Chain']
    | cons b rest =>
      have hb : b.mapped := by
        refine hmapped b ?_
        rw [hfm]
        exact List.mem_cons_self b rest
      have hnv : ¬samOrderViolation (-1) (-1) b := by
        unfold samOrderViolation
        rcases hb with ⟨_, htid⟩
        omega
      show sortedFrom (-1) (-1) (b :: rest) ↔ List.Chain samOrderOk b rest
      simp only [sortedFrom]
      rw [sortedFrom_chain rest b]
      exact ⟨fun ⟨_, h⟩ => h, fun h => ⟨hnv, h⟩⟩
  constructor
  · intro h hch
    rw [key.mpr hch] at h
    cases h
  · intro h
    cases habs : samScanAborts (l.filter (fun b => decide b.mapped)) (-1) (-1) with
    | false => exact absurd (key.mp habs) h
    | true => rfl

/-! ### Multiread resolution (sampler.cpp, MultireadSamplerThread::run,
lines 1891-1923)

For one multiread with `k` alignment records the loop zeroes every count,
draws `r = sumprob * uniform`, walks the alignments subtracting each
probability from `r` until `r <= prob[i]`, clamps `i = min(i, k - 1)`, and
sets the selected count to 1.  The draw `r` is modelled as an arbitrary
rational input; probabilities are the current values behind the alignment
probability pointers. -/

/-- Selection walk of `MultireadSamplerThread::run`: starting at index `i`,
break at the first alignment whose probability covers the remaining `r`,
subtracting as the source loop does; falls off the end at `i = k`. -/
def selectLoop : List ℚ → ℚ → ℕ → ℕ
  | [], _, i => i
  | p :: ps, r, i => if r ≤ p then i else selectLoop ps (r - p) (i + 1)

/-- Selected alignment index, after the `i = std::min(i, k - 1)` clamp. -/
def multireadSelect (probs : List ℚ) (r : ℚ) : ℕ :=
  min (selectLoop probs r 0) (probs.length - 1)

/-- Count fields of the alignment records after the multiread is processed:
all zeroed, then the selected alignment's count set to 1. -/
def multireadCounts (probs : List ℚ) (r : ℚ) : List ℕ :=
  (List.range probs.length).map
    (fun i => if i = multireadSelect probs r then 1 else 0)

theorem selectLoop_shift (ps : List ℚ) (r : ℚ) (i : ℕ) :
    selectLoop ps r i = i + selectLoop ps r 0 := by
  induction ps generalizing r i with
  | nil => simp [selectLoop]
  | cons p ps ih =>
    by_cases h : r ≤ p
    · simp [selectLoop, h]
    · simp only [selectLoop, if_neg h]
      rw [ih (r - p) (i + 1), ih (r - p) 1]
      omega

theorem selectLoop_le_length (ps : List ℚ) (r : ℚ) :
    selectLoop ps r 0 ≤ ps.length := by
  induction ps generalizing r with
  | nil => simp [selectLoop]
  | cons p ps ih =>
    by_cases h : r ≤ p
    · simp [selectLoop, h]
    · simp only [selectLoop, if_neg h, List.length_cons]
      rw [selectLoop_shift ps (r - p) 1]
      have := ih (r - p)
      omega

theorem selectLoop_not_covered (ps : List ℚ) (r : ℚ) :
    ∀ j < selectLoop ps r 0, ¬r ≤ (ps.take (j + 1)).sum := by
  induction ps generalizing r with
  | nil => simp [selectLoop]
  | cons p ps ih =>
    by_cases h : r ≤ p
    · simp [selectLoop, h]
    · simp only [selectLoop, if_neg h]
      rw [selectLoop_shift ps (r - p) 1]
      intro j hj
      cases j with
      | zero => simpa using h
      | succ j =>
        have hj2 : j < selectLoop ps (r - p) 0 := by omega
        have := ih (r - p) j hj2
        simp only [List.take_succ_cons, List.sum_cons]
        intro hle
        exact this (by linarith)

theorem selectLoop_covered (ps : List ℚ) (r : ℚ)
    (h : selectLoop ps r 0 < ps.length) :
    r ≤ (ps.take (selectLoop ps r 0 + 1)).sum := by
  induction ps generalizing r with
  | nil => simp [selectLoop] at h
  | cons p ps ih =>
    by_cases hc : r ≤ p
    · simp only [selectLoop, if_pos hc, List.take_succ_cons, List.take_zero,
        List.sum_cons, List.sum_nil, add_zero]
      exact hc
    · have hval : selectLoop (p :: ps) r 0 = 1 + selectLoop ps (r - p) 0 := by
        simp only [selectLoop, if_neg hc, zero_add]
        exact selectLoop_shift ps (r - p) 1
      rw [hval] at h ⊢
      simp only [List.length_cons] at h
      have h2 : selectLoop ps (r - p) 0 < ps.length := by omega
      have hih := ih (r - p) h2
      have htake : 1 + selectLoop ps (r - p) 0 + 1 =
          selectLoop ps (r - p) 0 + 1 + 1 := by omega
      rw [htake]
      simp only [List.take_succ_cons, List.sum_cons]
      linarith

theorem indicator_range_sum (k sel : ℕ) (h : sel < k) :
    (((List.range k).map (fun i => if i = sel then (1 : ℕ) else 0)).sum) = 1 := by
  induction k with
  | zero => omega
  | succ k ih =>
    rw [List.range_succ, List.map_append, List.sum_append]
    by_cases hsel : sel = k
    · subst hsel
      have hz : ((List.range sel).map
          (fun i => if i = sel then (1 : ℕ) else 0)).sum = 0 := by
        rw [List.sum_eq_zero]
        intro x hx
        rcases List.mem_map.mp hx with ⟨i, hi, hix⟩
        have : i < sel := List.mem_range.mp hi
        rw [← hix, if_neg (by omega)]
      simp [hz]
    · have hlt : sel < k := by omega
      rw [ih hlt]
      simp [hsel, Ne.symm hsel]

/-- C5: for a multiread with `k >= 1` alignments, after processing, exactly
one count equals 1 (the rest 0); the selected index is the first `i` whose
probability prefix sum covers the drawn `r` when such an index exists, and is
clamped to `k - 1` otherwise. -/
theorem multiread_resolution (probs : List ℚ) (r : ℚ)
    (hk : 0 < probs.length) :
    multireadSelect probs r < probs.length ∧
    (multireadCounts probs r).sum = 1 ∧
    (∀ i, i < probs.length →
      (multireadCounts probs r).getD i 0 =
        if i = multireadSelect probs r then 1 else 0) ∧
    ((∃ i, i < probs.length ∧ r ≤ (probs.take (i + 1)).sum) →
      r ≤ (probs.take (multireadSelect probs r + 1)).sum ∧
      ∀ j < multireadSelect probs r, ¬r ≤ (probs.take (j + 1)).sum) ∧
    ((∀ i, i < probs.length → ¬r ≤ (probs.take (i + 1)).sum) →
      multireadSelect probs r = probs.length - 1) := by
  have hsel_lt : multireadSelect probs r < probs.length := by
    unfold multireadSelect
    omega
  refine ⟨hsel_lt, ?_, ?_, ?_, ?_⟩
  · exact indicator_range_sum probs.length (multireadSelect probs r) hsel_lt
  · intro i hi
    unfold multireadCounts
    rw [List.getD_eq_getElem?_getD, List.getElem?_map, List.getElem?_range hi]
    rfl
  · intro ⟨i, hi, hcov⟩
    have hloop_lt : selectLoop probs r 0 < probs.length := by
      by_contra hge
      push_neg at hge
      have hnc := selectLoop_not_covered probs r i (by omega)
      exact hnc hcov
    have hsel_eq : multireadSelect probs r = selectLoop probs r 0 := by
      unfold multireadSelect
      omega
    rw [hsel_eq]
    exact ⟨selectLoop_covered probs r hloop_lt, selectLoop_not_covered probs r⟩
  · intro hnone
    have hge : probs.length ≤ selectLoop probs r 0 := by
      by_contra hlt
      push_neg at hlt
      exact hnone _ hlt (selectLoop_covered probs r hlt)
    have := selectLoop_le_length probs r
    unfold multireadSelect
    omega

/-- Witness for C5 at `probs = [3/10, 7/10]`, `r = 1/2`. -/
theorem multiread_resolution_witness :
    0 < ([(3 : ℚ)/10, 7/10]).length ∧
    (multireadSelect [(3 : ℚ)/10, 7/10] (1/2) < ([(3 : ℚ)/10, 7/10]).length ∧
    (multireadCounts [(3 : ℚ)/10, 7/10] (1/2)).sum = 1 ∧
    (∀ i, i < ([(3 : ℚ)/10, 7/10]).length →
      (multireadCounts [(3 : ℚ)/10, 7/10] (1/2)).getD i 0 =
        if i = multireadSelect [(3 : ℚ)/10, 7/10] (1/2) then 1 else 0) ∧
    ((∃ i, i < ([(3 : ℚ)/10, 7/10]).length ∧
        (1 : ℚ)/2 ≤ (([(3 : ℚ)/10, 7/10]).take (i + 1)).sum) →
      (1 : ℚ)/2 ≤ (([(3 : ℚ)/10, 7/10]).take
          (multireadSelect [(3 : ℚ)/10, 7/10] (1/2) + 1)).sum ∧
      ∀ j < multireadSelect [(3 : ℚ)/10, 7/10] (1/2),
        ¬(1 : ℚ)/2 ≤ (([(3 : ℚ)/10, 7/10]).take (j + 1)).sum) ∧
    ((∀ i, i < ([(3 : ℚ)/10, 7/10]).length →
        ¬(1 : ℚ)/2 ≤ (([(3 : ℚ)/10, 7/10]).take (i + 1)).sum) →
      multireadSelect [(3 : ℚ)/10, 7/10] (1/2) = ([(3 : ℚ)/10, 7/10]).length - 1)) :=
  ⟨by decide, multiread_resolution [(3 : ℚ)/10, 7/10] (1/2) (by decide)⟩

/-! ### MCMC mixture state (sampler.cpp, MCMCThread / Sampler::run /
Sampler::init_frag_probs)

The per-round mutable state is `tmix` (per-transcript within-component
mixture) and the fragment probability vectors.  The per-component dense
arrays `frag_probs[c][j - component_frag[c]]` are modelled as one map over
global fragment columns; `asxpy(y, x, a, idx, off, n)` (linalg) performs
`y[idx[i] - off] += a * x[i]` over a sparse row and is modelled on the global
column space.  Random draws (`gsl_rng_uniform`, `gsl_ran_gamma`, the shuffled
pairing of transcripts) enter the model as explicit inputs. -/

/-- Mutable mixture state of the sampler within a round. -/
structure MCState where
  tmix : ℕ → ℚ
  fragProbs : ℕ → ℚ

/-- Sparse scaled add `asxpy`: `y[j] += a * w` for each entry `(j, w)` of a
weight-matrix row. -/
def applyRow (y : ℕ → ℚ) (row : List (ℕ × ℚ)) (a : ℚ) : ℕ → ℚ :=
  row.foldl (fun acc e => Function.update acc e.1 (acc e.1 + a * e.2)) y

/-- Total weight a row assigns to fragment column `j` (the single entry's
weight when columns are distinct, 0 when absent). -/
def rowWeight (row : List (ℕ × ℚ)) (j : ℕ) : ℚ :=
  (row.map (fun e => if e.1 = j then e.2 else 0)).sum

/-- Body of `MCMCThread::run_inter_transcript` after the degeneracy test:
given the accepted split `z`, set `tmix[u] = z * (tmix[u]+tmix[v])`,
`tmix[v] = (1-z) * (tmix[u]+tmix[v])` and apply the two sparse scaled adds to
the fragment probabilities with the deltas of the two transcripts. -/
def moveBody (rows : ℕ → List (ℕ × ℚ)) (S : MCState) (u v : ℕ) (z : ℚ) :
    MCState :=
  let s := S.tmix u + S.tmix v
  { tmix := Function.update (Function.update S.tmix u (z * s)) v ((1 - z) * s)
    fragProbs :=
      applyRow (applyRow S.fragProbs (rows u) (z * s - S.tmix u))
        (rows v) ((1 - z) * s - S.tmix v) }

/-- Function `MCMCThread::run_inter_transcript` with the accepted split `z`
abstracted as an input (either branch of the slice-height test produces some
`z`): returns unchanged state when the combined mass is below `zero_eps`. -/
def interMove (rows : ℕ → List (ℕ × ℚ)) (zeroEps : ℚ) (S : MCState)
    (u v : ℕ) (z : ℚ) : MCState :=
  if S.tmix u + S.tmix v < zeroEps then S else moveBody rows S u v z

/-- Sequence of pairwise transcript moves of a round (the shuffled adjacent
pairings chosen by `run_intra_component`, over all components). -/
def applyMoves (rows : ℕ → List (ℕ × ℚ)) (zeroEps : ℚ) (S : MCState)
    (moves : List (ℕ × ℕ × ℚ)) : MCState :=
  moves.foldl (fun T m => interMove rows zeroEps T m.1 m.2.1 m.2.2) S

/-- Function `MCMCThread::run_inter_transcript` with its numeric-degeneracy
branches: the slice height is `fastlog2(uniform) + p0`, passed here as
`Option ℚ` (`none` for any non-finite float value); when finite, `z` is drawn
uniformly inside the bracket computed by the two
`transcript_slice_sample_search` calls (modelled by the function `search`,
left then right); when non-finite, `z` is the bare uniform draw `u01`. -/
def runInterTranscript (rows : ℕ → List (ℕ × ℚ)) (zeroEps : ℚ) (S : MCState)
    (u v : ℕ) (sliceHeight : Option ℚ) (u01 : ℚ) (search : Bool → ℚ) :
    MCState :=
  if S.tmix u + S.tmix v < zeroEps then S
  else
    moveBody rows S u v
      (match sliceHeight with
        | some _ =>
            let s0 := search true
            let s1 := search false
            s0 + u01 * (s1 - s0)
        | none => u01)

/-- Number of transcripts of component `c` (`component_num_transcripts[c]`). -/
def numTrans (nrow : ℕ) (comp : ℕ → ℕ) (c : ℕ) : ℕ :=
  ((Finset.range nrow).filter (fun i => comp i = c)).card

/-- Sum of `tmix` over the transcripts of component `c`. -/
def componentSum (nrow : ℕ) (comp : ℕ → ℕ) (t : ℕ → ℚ) (c : ℕ) : ℚ :=
  ∑ i in (Finset.range nrow).filter (fun i => comp i = c), t i

/-- Initial mixtures of `Sampler::run`:
`tmix[i] = 1.0 / component_num_transcripts[transcript_component[i]]`. -/
def tmixInit (nrow : ℕ) (comp : ℕ → ℕ) : ℕ → ℚ :=
  fun i => 1 / (numTrans nrow comp (comp i) : ℚ)

/-- Final per-round `cmix` pass of `Sampler::run`: every entry divided by the
total of the per-component Gamma draws `g`. -/
def normalizeCmix (g : ℕ → ℚ) (nC : ℕ) : ℕ → ℚ :=
  fun c => g c / ∑ j in Finset.range nC, g j

/-- Function `Sampler::init_frag_probs`: zero-fill, then for each transcript
`i` the sparse scaled add of row `i` with factor `tmix[i]`. -/
def initFragProbs (nrow : ℕ) (rows : ℕ → List (ℕ × ℚ)) (t : ℕ → ℚ) :
    ℕ → ℚ :=
  (List.range nrow).foldl (fun fp i => applyRow fp (rows i) (t i)) (fun _ => 0)

/-- Consistency of the fragment probability vectors with `tmix`: every
fragment probability is the `tmix`-weighted sum of the matrix column. -/
def FragConsistent (nrow : ℕ) (rows : ℕ → List (ℕ × ℚ)) (S : MCState) :
    Prop :=
  ∀ j, S.fragProbs j = ∑ i in Finset.range nrow, S.tmix i * rowWeight (rows i) j

theorem applyRow_apply (y : ℕ → ℚ) (row : List (ℕ × ℚ)) (a : ℚ) (j : ℕ) :
    applyRow y row a j = y j + a * rowWeight row j := by
  induction row generalizing y with
  | nil => simp [applyRow, rowWeight]
  | cons e row ih =>
    show applyRow (Function.update y e.1 (y e.1 + a * e.2)) row a j = _
    rw [ih]
    by_cases he : e.1 = j
    · subst he
      rw [Function.update_same]
      simp [rowWeight]
      ring
    · rw [Function.update_noteq (fun h => he h.symm)]
      simp only [rowWeight, List.map_cons, List.sum_cons, if_neg he, zero_add]

theorem sum_update2 (n : ℕ) (t w : ℕ → ℚ) (u v : ℕ) (a b : ℚ)
    (hu : u < n) (hv : v < n) (huv : u ≠ v) :
    ∑ i in Finset.range n, Function.update (Function.update t u a) v b i * w i =
      (∑ i in Finset.range n, t i * w i) + (a - t u) * w u + (b - t v) * w v := by
  have hvm : v ∈ Finset.range n := Finset.mem_range.mpr hv
  have hum : u ∈ (Finset.range n).erase v :=
    Finset.mem_erase.mpr ⟨huv, Finset.mem_range.mpr hu⟩
  rw [← Finset.add_sum_erase _ _ hvm, ← Finset.add_sum_erase _ _ hum]
  rw [Function.update_same, Function.update_noteq huv, Function.update_same]
  have hcong : ∑ i in ((Finset.range n).erase v).erase u,
      Function.update (Function.update t u a) v b i * w i =
      ∑ i in ((Finset.range n).erase v).erase u, t i * w i := by
    refine Finset.sum_congr rfl (fun i hi => ?_)
    have hiu : i ≠ u := (Finset.mem_erase.mp hi).1
    have hiv : i ≠ v := (Finset.mem_erase.mp (Finset.mem_erase.mp hi).2).1
    rw [Function.update_noteq hiv, Function.update_noteq hiu]
  rw [hcong]
  have hsplit : ∑ i in Finset.range n, t i * w i =
      t v * w v + (t u * w u + ∑ i in ((Finset.range n).erase v).erase u, t i * w i) := by
    rw [← Finset.add_sum_erase _ _ hvm, ← Finset.add_sum_erase _ _ hum]
  rw [hsplit]
  ring

theorem componentSum_update2 (nrow : ℕ) (comp : ℕ → ℕ) (t : ℕ → ℚ)
    (u v : ℕ) (a b : ℚ) (hu : u < nrow) (hv : v < nrow) (huv : u ≠ v)
    (hcc : comp u = comp v) (c : ℕ) :
    componentSum nrow comp (Function.update (Function.update t u a) v b) c =
      if comp u = c then componentSum nrow comp t c + (a + b - t u - t v)
      else componentSum nrow comp t c := by
  unfold componentSum
  by_cases hc : comp u = c
  · rw [if_pos hc]
    have hvm : v ∈ (Finset.range nrow).filter (fun i => comp i = c) := by
      refine Finset.mem_filter.mpr ⟨Finset.mem_range.mpr hv, ?_⟩
      rw [← hcc]
      exact hc
    have hum : u ∈ ((Finset.range nrow).filter (fun i => comp i = c)).erase v :=
      Finset.mem_erase.mpr ⟨huv,
        Finset.mem_filter.mpr ⟨Finset.mem_range.mpr hu, hc⟩⟩
    rw [← Finset.add_sum_erase _ _ hvm, ← Finset.add_sum_erase _ _ hum]
    rw [Function.update_same, Function.update_noteq huv, Function.update_same]
    have hcong : ∑ i in (((Finset.range nrow).filter
          (fun i => comp i = c)).erase v).erase u,
        Function.update (Function.update t u a) v b i =
        ∑ i in (((Finset.range nrow).filter
          (fun i => comp i = c)).erase v).erase u, t i := by
      refine Finset.sum_congr rfl (fun i hi => ?_)
      have hiu : i ≠ u := (Finset.mem_erase.mp hi).1
      have hiv : i ≠ v := (Finset.mem_erase.mp (Finset.mem_erase.mp hi).2).1
      rw [Function.update_noteq hiv, Function.update_noteq hiu]
    rw [hcong]
    have hsplit : ∑ i in (Finset.range nrow).filter (fun i => comp i = c), t i =
        t v + (t u + ∑ i in (((Finset.range nrow).filter
          (fun i => comp i = c)).erase v).erase u, t i) := by
      rw [← Finset.add_sum_erase _ _ hvm, ← Finset.add_sum_erase _ _ hum]
    rw [hsplit]
    ring
  · rw [if_neg hc]
    refine Finset.sum_congr rfl (fun i hi => ?_)
    have hic : comp i = c := (Finset.mem_filter.mp hi).2
    have hiu : i ≠ u := fun h => hc (h ▸ hic)
    have hiv : i ≠ v := fun h => hc (hcc.trans (h ▸ hic) ▸ rfl)
    rw [Function.update_noteq hiv, Function.update_noteq hiu]

theorem interMove_componentSum (nrow : ℕ) (comp : ℕ → ℕ)
    (rows : ℕ → List (ℕ × ℚ)) (zeroEps : ℚ) (S : MCState) (u v : ℕ) (z : ℚ)
    (hu : u < nrow) (hv : v < nrow) (huv : u ≠ v) (hcc : comp u = comp v)
    (c : ℕ) :
    componentSum nrow comp (interMove rows zeroEps S u v z).tmix c =
      componentSum nrow comp S.tmix c := by
  unfold interMove
  by_cases hskip : S.tmix u + S.tmix v < zeroEps
  · rw [if_pos hskip]
  · rw [if_neg hskip]
    show componentSum nrow comp
      (Function.update (Function.update S.tmix u (z * (S.tmix u + S.tmix v))) v
        ((1 - z) * (S.tmix u + S.tmix v))) c = _
    rw [componentSum_update2 nrow comp S.tmix u v _ _ hu hv huv hcc c]
    by_cases hc : comp u = c
    · rw [if_pos hc]
      ring
    · rw [if_neg hc]

theorem applyMoves_componentSum (nrow : ℕ) (comp : ℕ → ℕ)
    (rows : ℕ → List (ℕ × ℚ)) (zeroEps : ℚ) (S : MCState)
    (moves : List (ℕ × ℕ × ℚ))
    (hmoves : ∀ m ∈ moves,
      m.1 < nrow ∧ m.2.1 < nrow ∧ m.1 ≠ m.2.1 ∧ comp m.1 = comp m.2.1)
    (c : ℕ) :
    componentSum nrow comp (applyMoves rows zeroEps S moves).tmix c =
      componentSum nrow comp S.tmix c := by
  induction moves generalizing S with
  | nil => rfl
  | cons m ms ih =>
    have hm := hmoves m (List.mem_cons_self m ms)
    show componentSum nrow comp
        (applyMoves rows zeroEps (interMove rows zeroEps S m.1 m.2.1 m.2.2) ms).tmix c = _
    rw [ih (interMove rows zeroEps S m.1 m.2.1 m.2.2)
      (fun x hx => hmoves x (List.mem_cons_of_mem m hx))]
    exact interMove_componentSum nrow comp rows zeroEps S m.1 m.2.1 m.2.2
      hm.1 hm.2.1 hm.2.2.1 hm.2.2.2 c

theorem componentSum_tmixInit (nrow : ℕ) (comp : ℕ → ℕ) (c : ℕ)
    (hne : 0 < numTrans nrow comp c) :
    componentSum nrow comp (tmixInit nrow comp) c = 1 := by
  unfold componentSum tmixInit
  have hcong : ∑ i in (Finset.range nrow).filter (fun i => comp i = c),
      (1 : ℚ) / (numTrans nrow comp (comp i) : ℚ) =
      ∑ _i in (Finset.range nrow).filter (fun i => comp i = c),
      (1 : ℚ) / (numTrans nrow comp c : ℚ) := by
    refine Finset.sum_congr rfl (fun i hi => ?_)
    rw [(Finset.mem_filter.mp hi).2]
  rw [hcong, Finset.sum_const]
  show (numTrans nrow comp c : ℕ) • ((1 : ℚ) / (numTrans nrow comp c : ℚ)) = 1
  rw [nsmul_eq_mul]
  have hne2 : (numTrans nrow comp c : ℚ) ≠ 0 := by
    exact_mod_cast Nat.pos_iff_ne_zero.mp hne
  field_simp

theorem interMove_pair_sum (rows : ℕ → List (ℕ × ℚ)) (zeroEps : ℚ)
    (S : MCState) (u v : ℕ) (z : ℚ) (huv : u ≠ v) :
    (interMove rows zeroEps S u v z).tmix u +
      (interMove rows zeroEps S u v z).tmix v = S.tmix u + S.tmix v := by
  unfold interMove
  by_cases hskip : S.tmix u + S.tmix v < zeroEps
  · rw [if_pos hskip]
  · rw [if_neg hskip]
    show Function.update (Function.update S.tmix u (z * (S.tmix u + S.tmix v)))
        v ((1 - z) * (S.tmix u + S.tmix v)) u +
      Function.update (Function.update S.tmix u (z * (S.tmix u + S.tmix v)))
        v ((1 - z) * (S.tmix u + S.tmix v)) v = _
    rw [Function.update_noteq huv, Function.update_same, Function.update_same]
    ring

theorem normalizeCmix_sum (g : ℕ → ℚ) (nC : ℕ) (hnC : 0 < nC)
    (hg : ∀ j, j < nC → 0 < g j) :
    ∑ j in Finset.range nC, normalizeCmix g nC j = 1 := by
  unfold normalizeCmix
  rw [← Finset.sum_div]
  apply div_self
  have hpos : 0 < ∑ j in Finset.range nC, g j := by
    refine Finset.sum_pos (fun j hj => hg j (Finset.mem_range.mp hj)) ?_
    exact ⟨0, Finset.mem_range.mpr hnC⟩
  exact ne_of_gt hpos

/-- C3: per-component `tmix` sums and the overall `cmix` sum are 1 (hence
within 1e-5 of 1) after every sampling round: `tmix` is initialized uniformly
within each component and sums to 1 per component; each
`run_inter_transcript(u,v)` call preserves `tmix[u]+tmix[v]` and hence every
per-component sum across a round's moves; the per-round final pass divides
every `cmix[c]` by the total, making `cmix` sum to 1. -/
theorem mixture_normalization (nrow nC : ℕ) (comp : ℕ → ℕ)
    (rows : ℕ → List (ℕ × ℚ)) (zeroEps : ℚ) (S : MCState)
    (moves : List (ℕ × ℕ × ℚ)) (g : ℕ → ℚ) (u v : ℕ) (z : ℚ) (c : ℕ)
    (hnC : 0 < nC)
    (hne : 0 < numTrans nrow comp c)
    (hmoves : ∀ m ∈ moves,
      m.1 < nrow ∧ m.2.1 < nrow ∧ m.1 ≠ m.2.1 ∧ comp m.1 = comp m.2.1)
    (hS : componentSum nrow comp S.tmix c = 1)
    (huv : u ≠ v)
    (hg : ∀ j, j < nC → 0 < g j) :
    componentSum nrow comp (tmixInit nrow comp) c = 1 ∧
    componentSum nrow comp (applyMoves rows zeroEps S moves).tmix c = 1 ∧
    |componentSum nrow comp (applyMoves rows zeroEps S moves).tmix c - 1|
      ≤ 1 / 100000 ∧
    (interMove rows zeroEps S u v z).tmix u +
      (interMove rows zeroEps S u v z).tmix v = S.tmix u + S.tmix v ∧
    ∑ j in Finset.range nC, normalizeCmix g nC j = 1 ∧
    |(∑ j in Finset.range nC, normalizeCmix g nC j) - 1| ≤ 1 / 100000 := by
  have h2 : componentSum nrow comp (applyMoves rows zeroEps S moves).tmix c = 1 := by
    rw [applyMoves_componentSum nrow comp rows zeroEps S moves hmoves c]
    exact hS
  have h5 : ∑ j in Finset.range nC, normalizeCmix g nC j = 1 :=
    normalizeCmix_sum g nC hnC hg
  refine ⟨componentSum_tmixInit nrow comp c hne, h2, ?_,
    interMove_pair_sum rows zeroEps S u v z huv, h5, ?_⟩
  · rw [h2]
    norm_num
  · rw [h5]
    norm_num

/-- Witness for C3 at a concrete two-transcript, one-component instance. -/
theorem mixture_normalization_witness :
    componentSum 2 (fun _ => 0) (tmixInit 2 (fun _ => 0)) 0 = 1 ∧
    componentSum 2 (fun _ => 0)
      (applyMoves (fun _ => []) (1/1000000) ⟨fun _ => 1/2, fun _ => 0⟩
        [(0, 1, 1/3)]).tmix 0 = 1 ∧
    |componentSum 2 (fun _ => 0)
      (applyMoves (fun _ => []) (1/1000000) ⟨fun _ => 1/2, fun _ => 0⟩
        [(0, 1, 1/3)]).tmix 0 - 1| ≤ 1 / 100000 ∧
    (interMove (fun _ => []) (1/1000000) ⟨fun _ => 1/2, fun _ => 0⟩ 0 1
        (1/4)).tmix 0 +
      (interMove (fun _ => []) (1/1000000) ⟨fun _ => 1/2, fun _ => 0⟩ 0 1
        (1/4)).tmix 1 =
      (⟨fun _ => 1/2, fun _ => 0⟩ : MCState).tmix 0 +
      (⟨fun _ => 1/2, fun _ => 0⟩ : MCState).tmix 1 ∧
    ∑ j in Finset.range 1, normalizeCmix (fun _ => 2) 1 j = 1 ∧
    |(∑ j in Finset.range 1, normalizeCmix (fun _ => 2) 1 j) - 1| ≤ 1 / 100000 :=
  mixture_normalization 2 1 (fun _ => 0) (fun _ => []) (1/1000000)
    ⟨fun _ => 1/2, fun _ => 0⟩ [(0, 1, 1/3)] (fun _ => 2) 0 1 (1/4) 0
    (by decide) (by decide)
    (by decide)
    (by simp [componentSum, Finset.sum_range_succ])
    (by decide) (fun j _ => by norm_num)

theorem initFragProbs_spec (nrow : ℕ) (rows : ℕ → List (ℕ × ℚ)) (t : ℕ → ℚ)
    (j : ℕ) :
    initFragProbs nrow rows t j =
      ∑ i in Finset.range nrow, t i * rowWeight (rows i) j := by
  induction nrow with
  | zero => simp [initFragProbs]
  | succ n ih =>
    unfold initFragProbs
    rw [List.range_succ, List.foldl_append]
    show applyRow (initFragProbs n rows t) (rows n) (t n) j = _
    rw [applyRow_apply, ih, Finset.sum_range_succ]

theorem interMove_fragConsistent (nrow : ℕ) (rows : ℕ → List (ℕ × ℚ))
    (zeroEps : ℚ) (S : MCState) (u v : ℕ) (z : ℚ)
    (hu : u < nrow) (hv : v < nrow) (huv : u ≠ v)
    (hS : FragConsistent nrow rows S) :
    FragConsistent nrow rows (interMove rows zeroEps S u v z) := by
  unfold interMove
  by_cases hskip : S.tmix u + S.tmix v < zeroEps
  · rw [if_pos hskip]
    exact hS
  · rw [if_neg hskip]
    intro j
    show applyRow (applyRow S.fragProbs (rows u) (z * (S.tmix u + S.tmix v) - S.tmix u))
        (rows v) ((1 - z) * (S.tmix u + S.tmix v) - S.tmix v) j =
      ∑ i in Finset.range nrow,
        Function.update (Function.update S.tmix u (z * (S.tmix u + S.tmix v))) v
          ((1 - z) * (S.tmix u + S.tmix v)) i * rowWeight (rows i) j
    rw [applyRow_apply, applyRow_apply, hS j]
    rw [sum_update2 nrow S.tmix (fun i => rowWeight (rows i) j) u v _ _ hu hv huv]

/-- C4: the fragment probability vectors hold, for every fragment, the
`tmix`-weighted column sum of the weight matrix: this is established by
`init_frag_probs` (full rebuild) and preserved by the sparse delta update of
every `run_inter_transcript` move; when transcripts of other components carry
no weight on this component's fragments, the full-transcript sum equals the
sum over the fragment's own component's transcripts. -/
theorem frag_probs_consistency (nrow : ℕ) (rows : ℕ → List (ℕ × ℚ))
    (comp ccomp : ℕ → ℕ) (zeroEps : ℚ) (t : ℕ → ℚ) (S : MCState)
    (u v : ℕ) (z : ℚ)
    (hu : u < nrow) (hv : v < nrow) (huv : u ≠ v)
    (hS : FragConsistent nrow rows S)
    (hdisj : ∀ i j, i < nrow → comp i ≠ ccomp j → rowWeight (rows i) j = 0) :
    FragConsistent nrow rows ⟨t, initFragProbs nrow rows t⟩ ∧
    FragConsistent nrow rows (interMove rows zeroEps S u v z) ∧
    ∀ j, S.fragProbs j =
      ∑ i in (Finset.range nrow).filter (fun i => comp i = ccomp j),
        S.tmix i * rowWeight (rows i) j := by
  refine ⟨initFragProbs_spec nrow rows t,
    interMove_fragConsistent nrow rows zeroEps S u v z hu hv huv hS, ?_⟩
  intro j
  rw [hS j]
  rw [← Finset.sum_filter_add_sum_filter_not (Finset.range nrow)
    (fun i => comp i = ccomp j) (fun i => S.tmix i * rowWeight (rows i) j)]
  have hzero : ∑ i in (Finset.range nrow).filter (fun i => ¬comp i = ccomp j),
      S.tmix i * rowWeight (rows i) j = 0 := by
    refine Finset.sum_eq_zero (fun i hi => ?_)
    rcases Finset.mem_filter.mp hi with ⟨hir, hic⟩
    rw [hdisj i j (Finset.mem_range.mp hir) hic, mul_zero]
  rw [hzero, add_zero]

/-- Witness for C4 at a concrete two-transcript instance with a single
shared fragment column. -/
theorem frag_probs_consistency_witness :
    (0 : ℕ) < 2 ∧ (1 : ℕ) < 2 ∧ (0 : ℕ) ≠ 1 ∧
    (FragConsistent 2 (fun i => [(0, if i = 0 then 1 else 1/2)])
      ⟨fun _ => 1/2, initFragProbs 2 (fun i => [(0, if i = 0 then 1 else 1/2)])
        (fun _ => 1/2)⟩ ∧
    FragConsistent 2 (fun i => [(0, if i = 0 then 1 else 1/2)])
      (interMove (fun i => [(0, if i = 0 then 1 else 1/2)]) (1/1000000)
        ⟨fun _ => 1/2, initFragProbs 2 (fun i => [(0, if i = 0 then 1 else 1/2)])
          (fun _ => 1/2)⟩ 0 1 (1/4)) ∧
    ∀ j, (⟨fun _ => 1/2, initFragProbs 2 (fun i => [(0, if i = 0 then 1 else 1/2)])
        (fun _ => 1/2)⟩ : MCState).fragProbs j =
      ∑ i in (Finset.range 2).filter (fun i => (fun _ => 0 : ℕ → ℕ) i =
          (fun _ => 0 : ℕ → ℕ) j),
        (⟨fun _ => 1/2, initFragProbs 2 (fun i => [(0, if i = 0 then 1 else 1/2)])
          (fun _ => 1/2)⟩ : MCState).tmix i *
        rowWeight ((fun i => [(0, if i = 0 then 1 else 1/2)]) i) j) :=
  ⟨by decide, by decide, by decide,
    frag_probs_consistency 2 (fun i => [(0, if i = 0 then 1 else 1/2)])
      (fun _ => 0) (fun _ => 0) (1/1000000) (fun _ => 1/2)
      ⟨fun _ => 1/2, initFragProbs 2 (fun i => [(0, if i = 0 then 1 else 1/2)])
        (fun _ => 1/2)⟩ 0 1 (1/4)
      (by decide) (by decide) (by decide)
      (initFragProbs_spec 2 (fun i => [(0, if i = 0 then 1 else 1/2)])
        (fun _ => 1/2))
      (fun i j _ hic => absurd rfl hic)⟩

/-- C6: numeric degeneracies of `run_inter_transcript` are handled by local
fallback, never by error: a combined mass below `zero_eps` returns with the
whole sampler state unchanged, and a non-finite slice height makes the new
split `z` the bare uniform draw, bypassing (and independent of) the
slice-boundary search. -/
theorem inter_transcript_degeneracy (rows : ℕ → List (ℕ × ℚ)) (zeroEps : ℚ)
    (S T : MCState) (u v : ℕ) (sliceHeight : Option ℚ) (u01 : ℚ)
    (search searchB : Bool → ℚ)
    (hz : S.tmix u + S.tmix v < zeroEps) :
    runInterTranscript rows zeroEps S u v sliceHeight u01 search = S ∧
    runInterTranscript rows zeroEps T u v none u01 search =
      interMove rows zeroEps T u v u01 ∧
    runInterTranscript rows zeroEps T u v none u01 search =
      runInterTranscript rows zeroEps T u v none u01 searchB := by
  refine ⟨?_, rfl, rfl⟩
  unfold runInterTranscript
  rw [if_pos hz]

/-- Witness for C6 at a concrete degenerate state (zero mixture mass). -/
theorem inter_transcript_degeneracy_witness :
    (⟨fun _ => 0, fun _ => 0⟩ : MCState).tmix 0 +
      (⟨fun _ => 0, fun _ => 0⟩ : MCState).tmix 1 < (1 : ℚ)/1000000 ∧
    (runInterTranscript (fun _ => []) (1/1000000) ⟨fun _ => 0, fun _ => 0⟩ 0 1
        (some 1) (1/3) (fun _ => 1/2) = (⟨fun _ => 0, fun _ => 0⟩ : MCState) ∧
    runInterTranscript (fun _ => []) (1/1000000) ⟨fun _ => 1/2, fun _ => 0⟩ 0 1
        none (1/3) (fun _ => 1/2) =
      interMove (fun _ => []) (1/1000000) ⟨fun _ => 1/2, fun _ => 0⟩ 0 1 (1/3) ∧
    runInterTranscript (fun _ => []) (1/1000000) ⟨fun _ => 1/2, fun _ => 0⟩ 0 1
        none (1/3) (fun _ => 1/2) =
      runInterTranscript (fun _ => []) (1/1000000) ⟨fun _ => 1/2, fun _ => 0⟩ 0 1
        none (1/3) (fun _ => 1/4)) :=
  ⟨by norm_num,
    inter_transcript_degeneracy (fun _ => []) (1/1000000)
      ⟨fun _ => 0, fun _ => 0⟩ ⟨fun _ => 1/2, fun _ => 0⟩ 0 1 (some 1) (1/3)
      (fun _ => 1/2) (fun _ => 1/4) (by norm_num)⟩

/-! ### transcript_sequence_bias (sampler.cpp, lines 924-956)

The four per-position bias arrays (mate 1 / mate 2, indexed by strand) are
modelled as total maps; the bias-model lookups
`sb->get_mate1_bias(tseq_s, pos + L)` / `sb->get_mate2_bias(tseq_s, pos + L)`
are abstracted as input functions `b1 s pos` / `b2 s pos` (the sequence
handling is an external collaborator).  In the bias-model branch the source
loop body is

    mate1_seqbias[0][pos] = fm.sb->get_mate1_bias(tseq0, pos + L);
    mate1_seqbias[1][pos] = fm.sb->get_mate1_bias(tseq1, pos + L);
    mate1_seqbias[0][pos] = fm.sb->get_mate2_bias(tseq0, pos + L);
    mate1_seqbias[1][pos] = fm.sb->get_mate2_bias(tseq1, pos + L);

so both `mate1_seqbias` slots are written twice (the mate-2 value last) and
`mate2_seqbias` is never written, after which both strand-1 array prefixes
are reversed. -/

/-- Contents of the four seqbias arrays, strand-indexed (false = strand 0). -/
structure SeqBiasState where
  mate1 : Bool → ℕ → ℚ
  mate2 : Bool → ℕ → ℚ

/-- Reversal of the first `tlen` positions of an array
(`std::reverse(a.begin(), a.begin() + tlen)`). -/
def revPrefix (tlen : ℕ) (f : ℕ → ℚ) : ℕ → ℚ :=
  fun pos => if pos < tlen then f (tlen - 1 - pos) else f pos

/-- Function `SamplerInitThread::transcript_sequence_bias`: `hasBias` is
false when `fm.sb == NULL || locus.seq == NULL` (all four prefixes filled
with 1.0); otherwise the loop body above runs for `pos < tlen` followed by
the two strand-1 prefix reversals. -/
def transcriptSequenceBias (hasBias : Bool) (tlen : ℕ)
    (b1 b2 : Bool → ℕ → ℚ) (st : SeqBiasState) : SeqBiasState :=
  if !hasBias then
    { mate1 := fun s pos => if pos < tlen then 1 else st.mate1 s pos
      mate2 := fun s pos => if pos < tlen then 1 else st.mate2 s pos }
  else
    { mate1 := fun s pos =>
        if s then revPrefix tlen
          (fun p => if p < tlen then b2 true p else st.mate1 true p) pos
        else if pos < tlen then b2 false pos else st.mate1 false pos
      mate2 := fun s pos =>
        if s then revPrefix tlen (st.mate2 true) pos
        else st.mate2 false pos }

/-- C8 (refuted): the claim requires `mate1_seqbias[strand][pos]` to hold the
mate-1 bias and `mate2_seqbias[strand][pos]` the mate-2 bias after the call;
on strand 0 at position 0 of a length-1 transcript, with mate-1 bias 2 and
mate-2 bias 3 everywhere and zeroed arrays, the code instead leaves the
mate-2 bias in `mate1_seqbias` (the last of the two copy-paste writes) and
the stale zero in `mate2_seqbias`. -/
theorem transcript_sequence_bias_copypaste :
    (transcriptSequenceBias true 1 (fun _ _ => 2) (fun _ _ => 3)
        ⟨fun _ _ => 0, fun _ _ => 0⟩).mate1 false 0 = 3 ∧
    (transcriptSequenceBias true 1 (fun _ _ => 2) (fun _ _ => 3)
        ⟨fun _ _ => 0, fun _ _ => 0⟩).mate1 false 0 ≠ 2 ∧
    (transcriptSequenceBias true 1 (fun _ _ => 2) (fun _ _ => 3)
        ⟨fun _ _ => 0, fun _ _ => 0⟩).mate2 false 0 = 0 ∧
    (transcriptSequenceBias true 1 (fun _ _ => 2) (fun _ _ => 3)
        ⟨fun _ _ => 0, fun _ _ => 0⟩).mate2 false 0 ≠ 3 ∧
    (transcriptSequenceBias true 1 (fun _ _ => 2) (fun _ _ => 3)
        ⟨fun _ _ => 0, fun _ _ => 0⟩).mate1 true 0 = 3 ∧
    (transcriptSequenceBias true 1 (fun _ _ => 2) (fun _ _ => 3)
        ⟨fun _ _ => 0, fun _ _ => 0⟩).mate2 true 0 = 0 := by
  refine ⟨rfl, fun h => ?_, rfl, fun h => ?_, rfl, rfl⟩
  · exact absurd (show (3 : ℚ) = 2 from h) (by norm_num)
  · exact absurd (show (0 : ℚ) = 3 from h) (by norm_num)

/-! ### process_locus multiread handling (sampler.cpp, lines 787-921)

The read-collapsing loop diverts blacklisted reads and detects multireads
(`fm.multireads.get(...) >= 0`), but the insertion into `multiread_set` is
compiled out with `#if 0`, so the set stays empty; the downstream live code
(per-transcript weight computation over the set, sorting of
`multiread_entries` by (multiread number, transcript), grouping by read,
per-transcript weight aggregation, fresh fragment index per group, pushes
into the weight matrix and the shared `multiread_frags` table) is modelled
faithfully below and therefore receives an empty input. -/

/-- Entry of the `multiread_entries` vector (MultireadEntry, sampler.cpp
lines 424-449). -/
structure MultireadEntry where
  multireadNum : ℕ
  transcriptIdx : ℕ
  fragWeight : ℚ
  alignPr : ℚ
  deriving DecidableEq

/-- Comparison `MultireadEntry::operator<`: by multiread number, then by
transcript index. -/
def MultireadEntry.le (a b : MultireadEntry) : Bool :=
  if a.multireadNum ≠ b.multireadNum then a.multireadNum < b.multireadNum
  else a.transcriptIdx ≤ b.transcriptIdx

/-- Maximal runs of consecutive elements equal under `p`, as scanned by the
grouping loops (`while (k != end && i->multiread_num == k->multiread_num)`). -/
def runsBy (p : α → α → Bool) : List α → List (List α)
  | [] => []
  | a :: rest =>
    match runsBy p rest with
    | [] => [[a]]
    | [] :: gs => [a] :: gs
    | (b :: g) :: gs =>
      if p a b then (a :: b :: g) :: gs else [a] :: (b :: g) :: gs

/-- Relevant fields of a read of the locus: whether it is blacklisted
(`fm.blacklist.get(...) >= 0`), its multiread number
(`fm.multireads.get(...)`, nonnegative exactly for multireads), and its
alignment ids. -/
structure LocusRead where
  blacklisted : Bool
  multireadNum : Int
  alignments : List ℕ

/-- Multiread set collected by the read-collapsing loop of `process_locus`:
blacklisted reads are skipped; for a multiread the insertion
`multiread_set.insert(std::make_pair(multiread_num, r->second))` is compiled
out with `#if 0`, so the branch only skips the read; other reads go to the
ordinary fragment path and are never inserted here. -/
def multireadSetOf (reads : List LocusRead) : List (ℕ × LocusRead) :=
  reads.foldl
    (fun acc r =>
      if r.blacklisted then acc
      else if 0 ≤ r.multireadNum then acc
      else acc)
    []

/-- Live per-transcript loop over the multiread set: for every transcript
`t` and every alignment of every multiread, a `MultireadEntry(num, t, w, 1.0)`
is appended when `fragment_weight` exceeds `min_frag_weight`. -/
def multireadEntriesOf (transcripts : List ℕ) (set : List (ℕ × LocusRead))
    (w : ℕ → ℕ → ℚ) (minW : ℚ) : List MultireadEntry :=
  transcripts.flatMap (fun t =>
    set.flatMap (fun r =>
      r.2.alignments.filterMap (fun a =>
        if minW < w t a then some ⟨r.1, t, w t a, 1⟩ else none)))

/-- Aggregation loop over one multiread group already sorted by transcript:
runs of equal transcript index are summed (`w += align_pr * frag_weight`) and
pushed under the group's fragment index when above `min_frag_weight`. -/
def groupPushes (g : List MultireadEntry) (fragIdx : ℕ) (minW : ℚ) :
    List (ℕ × ℕ × ℚ) :=
  (runsBy (fun a b => a.transcriptIdx == b.transcriptIdx) g).filterMap
    (fun tg =>
      match tg with
      | [] => none
      | e :: _ =>
        let w := (tg.map (fun x => x.alignPr * x.fragWeight)).sum
        if minW < w then some (e.transcriptIdx, fragIdx, w) else none)

/-- Processing of the sorted entries grouped by multiread number: groups with
zero total weight are skipped before a fragment index is allocated; otherwise
a fresh index is drawn from the shared `Indexer`, the (multiread, fragment)
pair is recorded in `multiread_frags`, and the per-transcript sums are
pushed. -/
def aggregateGroups (minW : ℚ) :
    List (List MultireadEntry) → ℕ → List (ℕ × ℕ × ℚ) × List (ℕ × ℕ)
  | [], _ => ([], [])
  | g :: gs, nxt =>
    match g with
    | [] => aggregateGroups minW gs nxt
    | e :: _ =>
      let sumW := (g.map (fun x => x.fragWeight * x.alignPr)).sum
      if sumW = 0 then aggregateGroups minW gs nxt
      else
        let rest := aggregateGroups minW gs (nxt + 1)
        (groupPushes g nxt minW ++ rest.1, (e.multireadNum, nxt) :: rest.2)

/-- Multiread phase of `process_locus`: entries of the collected multiread
set, sorted by (multiread number, transcript), grouped by multiread number,
aggregated into weight-matrix pushes and `multiread_frags` records. -/
def multireadPhase (reads : List LocusRead) (transcripts : List ℕ)
    (w : ℕ → ℕ → ℚ) (minW : ℚ) (firstIdx : ℕ) :
    List (ℕ × ℕ × ℚ) × List (ℕ × ℕ) :=
  aggregateGroups minW
    (runsBy (fun a b => a.multireadNum == b.multireadNum)
      ((multireadEntriesOf transcripts (multireadSetOf reads) w minW).mergeSort
        MultireadEntry.le))
    firstIdx

theorem multireadSetOf_nil (reads : List LocusRead) :
    multireadSetOf reads = [] := by
  unfold multireadSetOf
  induction reads with
  | nil => rfl
  | cons r rest ih =>
    show List.foldl _ (if r.blacklisted then [] else
      if 0 ≤ r.multireadNum then [] else []) rest = []
    have hcollapse : (if r.blacklisted then ([] : List (ℕ × LocusRead)) else
        if 0 ≤ r.multireadNum then [] else []) = [] := by
      by_cases hb : r.blacklisted <;> by_cases hm : 0 ≤ r.multireadNum <;>
        simp [hb, hm]
    rw [hcollapse]
    exact ih

/-- C7 (refuted): the multiread phase of `process_locus` never pushes any
(transcript, weight) pair and never records any (multiread, fragment index)
pair, for every locus input: the collection of the multiread set is compiled
out (`#if 0`), so the live aggregation pipeline always runs on an empty
set. -/
theorem multiread_phase_empty (reads : List LocusRead) (transcripts : List ℕ)
    (w : ℕ → ℕ → ℚ) (minW : ℚ) (firstIdx : ℕ) :
    multireadPhase reads transcripts w minW firstIdx = ([], []) := by
  unfold multireadPhase
  rw [multireadSetOf_nil]
  have hent : multireadEntriesOf transcripts [] w minW = [] := by
    unfold multireadEntriesOf
    induction transcripts with
    | nil => rfl
    | cons t ts ih => simpa using ih
  rw [hent, List.mergeSort_nil]
  rfl

/-! ### WeightMatrix (sampler.cpp, lines 56-312)

A row is the list of (column index, weight) entries in insertion order; the
reserve/doubling reallocation of `push` and the 16-byte aligned trimming of
`compact` are allocation details with no effect on the stored entries and are
not part of the state.  `sortrow` (lines 241-303) sorts one row in place by
column index: ranges shorter than 7 by repeated minimum selection, longer
ranges by a median-of-three Lomuto partition around a pivot element, the
subranges processed from an explicit stack; it is modelled as the equivalent
structural recursion on the entry list (stack order does not affect the final
contents since the ranges are disjoint). -/

/-- Function `median_of_three` (sampler.cpp 226-236) on the three candidate
entries, comparing column indices: the three-compare swap network expanded to
nested conditionals (swap slots 0,1 if ascending; swap slots 1,2 if
ascending; swap slots 0,1 if ascending; return slot 1). -/
def med3 (a b c : ℕ × ℚ) : ℕ × ℚ :=
  if a.1 < b.1 then
    if a.1 < c.1 then
      if b.1 < c.1 then b else c
    else
      if b.1 < a.1 then b else a
  else
    if b.1 < c.1 then
      if a.1 < c.1 then a else c
    else
      if a.1 < b.1 then a else b

theorem med3_mem (a b c : ℕ × ℚ) :
    med3 a b c = a ∨ med3 a b c = b ∨ med3 a b c = c := by
  unfold med3
  split_ifs <;> simp

/-- Pivot element chosen by `sortrow` for a range `[u, v)`: median of the
entries at positions `u`, `u + (v - u) / 2` and `v - 1`. -/
def pivotOf (l : List (ℕ × ℚ)) : ℕ × ℚ :=
  med3 (l.getD 0 (0, 0)) (l.getD (l.length / 2) (0, 0))
    (l.getD (l.length - 1) (0, 0))

theorem pivotOf_mem (l : List (ℕ × ℚ)) (h : l ≠ []) : pivotOf l ∈ l := by
  have hlen : 0 < l.length := List.length_pos.mpr h
  have hget : ∀ i, i < l.length → l.getD i (0, 0) ∈ l := by
    intro i hi
    rw [List.getD_eq_getElem l (0, 0) hi]
    exact List.getElem_mem hi
  rcases med3_mem (l.getD 0 (0, 0)) (l.getD (l.length / 2) (0, 0))
      (l.getD (l.length - 1) (0, 0)) with h1 | h1 | h1 <;>
    rw [pivotOf, h1]
  · exact hget 0 hlen
  · exact hget _ (by omega)
  · exact hget _ (by omega)

/-- Minimum-selection step of the short-range branch of `sortrow` (lines
263-276): find the entry with minimal column index, return it together with
the remaining entries. -/
def selectMin : (ℕ × ℚ) → List (ℕ × ℚ) → (ℕ × ℚ) × List (ℕ × ℚ)
  | x, [] => (x, [])
  | x, y :: ys =>
    if y.1 < x.1 then ((selectMin y ys).1, x :: (selectMin y ys).2)
    else ((selectMin x ys).1, y :: (selectMin x ys).2)

theorem selectMin_length (x : ℕ × ℚ) (ys : List (ℕ × ℚ)) :
    (selectMin x ys).2.length = ys.length := by
  induction ys generalizing x with
  | nil => rfl
  | cons y ys ih =>
    unfold selectMin
    by_cases h : y.1 < x.1 <;> simp [h, ih]

open List in
theorem selectMin_perm (x : ℕ × ℚ) (ys : List (ℕ × ℚ)) :
    (selectMin x ys).1 :: (selectMin x ys).2 ~ x :: ys := by
  induction ys generalizing x with
  | nil => exact List.Perm.refl _
  | cons y ys ih =>
    unfold selectMin
    by_cases h : y.1 < x.1
    · simp only [if_pos h]
      calc (selectMin y ys).1 :: x :: (selectMin y ys).2
          ~ x :: (selectMin y ys).1 :: (selectMin y ys).2 :=
            List.Perm.swap x (selectMin y ys).1 (selectMin y ys).2
        _ ~ x :: y :: ys := (ih y).cons x
    · simp only [if_neg h]
      calc (selectMin x ys).1 :: y :: (selectMin x ys).2
          ~ y :: (selectMin x ys).1 :: (selectMin x ys).2 :=
            List.Perm.swap y (selectMin x ys).1 (selectMin x ys).2
        _ ~ y :: x :: ys := (ih x).cons y
        _ ~ x :: y :: ys := List.Perm.swap x y ys

theorem selectMin_min (x : ℕ × ℚ) (ys : List (ℕ × ℚ)) :
    ∀ e ∈ x :: ys, (selectMin x ys).1.1 ≤ e.1 := by
  induction ys generalizing x with
  | nil =>
    intro e he
    rcases List.mem_cons.mp he with h | h
    · subst h
      exact Nat.le_refl _
    · cases h
  | cons y ys ih =>
    intro e he
    unfold selectMin
    by_cases h : y.1 < x.1
    · simp only [if_pos h]
      have hy : (selectMin y ys).1.1 ≤ y.1 := ih y y (List.mem_cons_self y ys)
      rcases List.mem_cons.mp he with h1 | h1
      · rw [h1]
        exact le_trans hy (le_of_lt h)
      · exact ih y e h1
    · simp only [if_neg h]
      push_neg at h
      have hx : (selectMin x ys).1.1 ≤ x.1 := ih x x (List.mem_cons_self x ys)
      rcases List.mem_cons.mp he with h1 | h1
      · rw [h1]
        exact hx
      · rcases List.mem_cons.mp h1 with h2 | h2
        · rw [h2]
          exact le_trans hx h
        · exact ih x e (List.mem_cons_of_mem x h2)

open List

/-- Removal of one occurrence of the pivot entry from the range (the Lomuto
partition of `sortrow` moves the pivot element aside before scanning). -/
def removeFirst (l : List (ℕ × ℚ)) (p : ℕ × ℚ) : List (ℕ × ℚ) :=
  match l with
  | [] => []
  | x :: xs => if x = p then xs else x :: removeFirst xs p

theorem removeFirst_length (l : List (ℕ × ℚ)) (p : ℕ × ℚ) (h : p ∈ l) :
    (removeFirst l p).length + 1 = l.length := by
  induction l with
  | nil => cases h
  | cons x xs ih =>
    unfold removeFirst
    by_cases hx : x = p
    · rw [if_pos hx]
      rfl
    · rw [if_neg hx]
      have hp : p ∈ xs := by
        rcases List.mem_cons.mp h with h1 | h1
        · exact absurd h1.symm hx
        · exact h1
      simp only [List.length_cons]
      rw [← ih hp]

theorem perm_cons_removeFirst (l : List (ℕ × ℚ)) (p : ℕ × ℚ) (h : p ∈ l) :
    l ~ p :: removeFirst l p := by
  induction l with
  | nil => cases h
  | cons x xs ih =>
    unfold removeFirst
    by_cases hx : x = p
    · rw [if_pos hx, hx]
    · rw [if_neg hx]
      have hp : p ∈ xs := by
        rcases List.mem_cons.mp h with h1 | h1
        · exact absurd h1.symm hx
        · exact h1
      exact ((ih hp).cons x).trans (List.Perm.swap p x (removeFirst xs p))

/-- Short-range branch of `sortrow`: repeatedly select the entry with the
minimal column index to the front (lines 263-276 perform exactly this
repeated minimum-swap). -/
def selsort (l : List (ℕ × ℚ)) : List (ℕ × ℚ) :=
  match l with
  | [] => []
  | x :: xs => (selectMin x xs).1 :: selsort (selectMin x xs).2
termination_by l.length
decreasing_by simp [selectMin_length]

theorem selsort_perm (l : List (ℕ × ℚ)) : selsort l ~ l := by
  match l with
  | [] =>
    rw [selsort]
  | x :: xs =>
    rw [selsort]
    have h2 := selsort_perm (selectMin x xs).2
    exact (h2.cons _).trans (selectMin_perm x xs)
termination_by l.length
decreasing_by simp [selectMin_length]

theorem selsort_sorted (l : List (ℕ × ℚ)) :
    (selsort l).Pairwise (fun a b => a.1 ≤ b.1) := by
  match l with
  | [] =>
    rw [selsort]
    exact List.Pairwise.nil
  | x :: xs =>
    rw [selsort]
    refine List.pairwise_cons.mpr ⟨?_, selsort_sorted (selectMin x xs).2⟩
    intro e he
    have he2 : e ∈ (selectMin x xs).2 := (selsort_perm _).mem_iff.mp he
    have he3 : e ∈ x :: xs :=
      (selectMin_perm x xs).mem_iff.mp (List.mem_cons_of_mem _ he2)
    exact selectMin_min x xs e he3
termination_by l.length
decreasing_by all_goals simp [selectMin_length]

/-- Function `WeightMatrix::sortrow` on one row's entry list: ranges shorter
than the insertion-sort cutoff 7 are sorted by repeated minimum selection;
otherwise a median-of-three pivot is chosen, the remaining entries are
partitioned by `column <= pivot column` (Lomuto scan, lines 288-295, the
complement being `pivot column < column` on naturals), and the two parts are
sorted recursively around the pivot. -/
def sortrow (l : List (ℕ × ℚ)) : List (ℕ × ℚ) :=
  if h : l.length < 7 then selsort l
  else
    sortrow ((removeFirst l (pivotOf l)).filter (fun e => e.1 ≤ (pivotOf l).1)) ++
      pivotOf l ::
        sortrow ((removeFirst l (pivotOf l)).filter (fun e => (pivotOf l).1 < e.1))
termination_by l.length
decreasing_by
  all_goals
    have hne : l ≠ [] := by
      intro hl
      rw [hl] at h
      simp at h
    have he := removeFirst_length l (pivotOf l) (pivotOf_mem l hne)
    have hf := List.length_filter_le
      (fun e => decide (e.1 ≤ (pivotOf l).1)) (removeFirst l (pivotOf l))
    have hg := List.length_filter_le
      (fun e => decide ((pivotOf l).1 < e.1)) (removeFirst l (pivotOf l))
    simp only [List.length_pos] at *
    omega

theorem filters_partition_erase (l : List (ℕ × ℚ)) (p : ℕ × ℚ) :
    (removeFirst l p).filter (fun e => e.1 ≤ p.1) ++
      (removeFirst l p).filter (fun e => p.1 < e.1) ~ removeFirst l p := by
  have hcong : (removeFirst l p).filter
      (fun e => !(decide (e.1 ≤ p.1))) =
      (removeFirst l p).filter (fun e => p.1 < e.1) := by
    refine List.filter_congr (fun e _ => ?_)
    by_cases hle : e.1 ≤ p.1
    · simp [hle, Nat.not_lt.mpr hle]
    · simp [hle, Nat.lt_of_not_le hle]
  rw [← hcong]
  exact List.filter_append_perm _ _

theorem sortrow_perm (l : List (ℕ × ℚ)) : sortrow l ~ l := by
  rw [sortrow]
  by_cases h : l.length < 7
  · rw [dif_pos h]
    exact selsort_perm l
  · rw [dif_neg h]
    have hne : l ≠ [] := by
      intro hl
      rw [hl] at h
      simp at h
    have hmem := pivotOf_mem l hne
    have ih1 := sortrow_perm ((removeFirst l (pivotOf l)).filter (fun e => e.1 ≤ (pivotOf l).1))
    have ih2 := sortrow_perm ((removeFirst l (pivotOf l)).filter (fun e => (pivotOf l).1 < e.1))
    calc sortrow ((removeFirst l (pivotOf l)).filter (fun e => e.1 ≤ (pivotOf l).1)) ++
          pivotOf l ::
            sortrow ((removeFirst l (pivotOf l)).filter (fun e => (pivotOf l).1 < e.1))
        ~ (removeFirst l (pivotOf l)).filter (fun e => e.1 ≤ (pivotOf l).1) ++
            pivotOf l ::
              (removeFirst l (pivotOf l)).filter (fun e => (pivotOf l).1 < e.1) :=
          ih1.append (ih2.cons (pivotOf l))
      _ ~ pivotOf l ::
            ((removeFirst l (pivotOf l)).filter (fun e => e.1 ≤ (pivotOf l).1) ++
              (removeFirst l (pivotOf l)).filter (fun e => (pivotOf l).1 < e.1)) :=
          List.perm_middle
      _ ~ pivotOf l :: removeFirst l (pivotOf l) :=
          (filters_partition_erase l (pivotOf l)).cons (pivotOf l)
      _ ~ l := (perm_cons_removeFirst l (pivotOf l) hmem).symm
termination_by l.length
decreasing_by
  all_goals
    have hne : l ≠ [] := by
      intro hl
      rw [hl] at h
      simp at h
    have he := removeFirst_length l (pivotOf l) (pivotOf_mem l hne)
    have hf := List.length_filter_le
      (fun e => decide (e.1 ≤ (pivotOf l).1)) (removeFirst l (pivotOf l))
    have hg := List.length_filter_le
      (fun e => decide ((pivotOf l).1 < e.1)) (removeFirst l (pivotOf l))
    simp only [List.length_pos] at *
    omega

theorem sortrow_sorted (l : List (ℕ × ℚ)) :
    (sortrow l).Pairwise (fun a b => a.1 ≤ b.1) := by
  rw [sortrow]
  by_cases h : l.length < 7
  · rw [dif_pos h]
    exact selsort_sorted l
  · rw [dif_neg h]
    have ih1 := sortrow_sorted ((removeFirst l (pivotOf l)).filter (fun e => e.1 ≤ (pivotOf l).1))
    have ih2 := sortrow_sorted ((removeFirst l (pivotOf l)).filter (fun e => (pivotOf l).1 < e.1))
    have hmem1 : ∀ a ∈ sortrow ((removeFirst l (pivotOf l)).filter
        (fun e => e.1 ≤ (pivotOf l).1)), a.1 ≤ (pivotOf l).1 := by
      intro a ha
      have := (sortrow_perm _).mem_iff.mp ha
      exact of_decide_eq_true (List.mem_filter.mp this).2
    have hmem2 : ∀ b ∈ sortrow ((removeFirst l (pivotOf l)).filter
        (fun e => (pivotOf l).1 < e.1)), (pivotOf l).1 < b.1 := by
      intro b hb
      have := (sortrow_perm _).mem_iff.mp hb
      exact of_decide_eq_true (List.mem_filter.mp this).2
    refine List.pairwise_append.mpr ⟨ih1, ?_, ?_⟩
    · refine List.pairwise_cons.mpr ⟨?_, ih2⟩
      intro b hb
      exact le_of_lt (hmem2 b hb)
    · intro a ha b hb
      rcases List.mem_cons.mp hb with hb1 | hb1
      · rw [hb1]
        exact hmem1 a ha
      · exact le_trans (hmem1 a ha) (le_of_lt (hmem2 b hb1))
termination_by l.length
decreasing_by
  all_goals
    have hne : l ≠ [] := by
      intro hl
      rw [hl] at h
      simp at h
    have he := removeFirst_length l (pivotOf l) (pivotOf_mem l hne)
    have hf := List.length_filter_le
      (fun e => decide (e.1 ≤ (pivotOf l).1)) (removeFirst l (pivotOf l))
    have hg := List.length_filter_le
      (fun e => decide ((pivotOf l).1 < e.1)) (removeFirst l (pivotOf l))
    simp only [List.length_pos] at *
    omega

/-- Row-compressed sparse matrix state: each row is its (column index,
weight) entries in insertion order.  `ncol` is the field updated by
`compact`; `nrow` is fixed at construction. -/
structure WeightMatrix where
  nrow : ℕ
  ncol : ℕ
  rows : List (List (ℕ × ℚ))

/-- Constructor `WeightMatrix(nrow)`: `nrow` empty rows, `ncol = 0`. -/
def WeightMatrix.init (nrow : ℕ) : WeightMatrix :=
  ⟨nrow, 0, List.replicate nrow []⟩

/-- Function `WeightMatrix::push(i, j, w)`: append entry `(j, w)` to row `i`
(the reserve-doubling reallocation only manages capacity); `i < nrow` is the
call contract. -/
def WeightMatrix.push (m : WeightMatrix) (i j : ℕ) (w : ℚ) : WeightMatrix :=
  { m with rows := m.rows.set i (m.rows.getD i [] ++ [(j, w)]) }

/-- State after a sequence of `push(i, j, w)` calls on a fresh matrix. -/
def WeightMatrix.pushList (m : WeightMatrix) (ps : List (ℕ × ℕ × ℚ)) :
    WeightMatrix :=
  ps.foldl (fun acc t => acc.push t.1 t.2.1 t.2.2) m

/-- Triples `(row, column, weight)` in `WeightMatrixIterator` order: rows in
order, each row's entries in order. -/
def WeightMatrix.triples (m : WeightMatrix) : List (ℕ × ℕ × ℚ) :=
  (List.range m.rows.length).flatMap
    (fun i => (m.rows.getD i []).map (fun e => (i, e.1, e.2)))

/-- Marking loop of `compact` (lines 172-176): column `j` carries at least
one entry somewhere in the matrix (the nested row/entry loops enumerate
exactly the triples). -/
def colUsed (m : WeightMatrix) (j : ℕ) : Bool :=
  m.triples.any (fun t => t.2.1 == j)

/-- Scan of `compact` computing `ncol` before reassignment (lines 162-167):
one more than the largest column index of any entry, 0 when there are no
entries. -/
def maxColPlus1 (m : WeightMatrix) : ℕ :=
  m.triples.foldl (fun a t => max a (t.2.1 + 1)) 0

/-- Reassignment loop of `compact` (lines 179-182): `newidx[j]` is the
number of used columns strictly below `j` (the running counter `j++` is
advanced exactly at used columns). -/
def newIdx (m : WeightMatrix) (j : ℕ) : ℕ :=
  ((List.range j).filter (fun i => colUsed m i)).length

/-- Function `WeightMatrix::compact`: trim rows (capacity only), set `ncol`
to `newidx[ncol - 1] + 1` after the reassignment, rewrite every entry's
column through `newidx`, sort every row by column, and return the old-to-new
column map.  The `newidx[ncol - 1]` read requires at least one entry (with
no entries the source reads out of bounds). -/
def WeightMatrix.compact (m : WeightMatrix) : WeightMatrix × (ℕ → ℕ) :=
  (⟨m.nrow, newIdx m (maxColPlus1 m - 1) + 1,
    m.rows.map (fun r => sortrow (r.map (fun e => (newIdx m e.1, e.2))))⟩,
   newIdx m)

theorem flatMap_congr_mem (l : List α) (f g : α → List β)
    (h : ∀ a ∈ l, f a = g a) : l.flatMap f = l.flatMap g := by
  induction l with
  | nil => rfl
  | cons x xs ih =>
    simp only [List.flatMap_cons]
    rw [h x (List.mem_cons_self x xs), ih (fun a ha => h a (List.mem_cons_of_mem x ha))]

theorem flatMap_perm_mem (l : List α) (f g : α → List β)
    (h : ∀ a ∈ l, f a ~ g a) : l.flatMap f ~ l.flatMap g := by
  induction l with
  | nil => exact List.Perm.refl _
  | cons x xs ih =>
    simp only [List.flatMap_cons]
    exact (h x (List.mem_cons_self x xs)).append
      (ih (fun a ha => h a (List.mem_cons_of_mem x ha)))

theorem flatMap_range_update (n i : ℕ) (hi : i < n) (g g2 : ℕ → List α)
    (x : α) (hg : ∀ k, k ≠ i → g2 k = g k) (hgi : g2 i = g i ++ [x]) :
    (List.range n).flatMap g2 ~ x :: (List.range n).flatMap g := by
  induction n with
  | zero => cases hi
  | succ n ih =>
    rw [List.range_succ, List.flatMap_append, List.flatMap_append]
    simp only [List.flatMap_cons, List.flatMap_nil, List.append_nil]
    by_cases hin : i = n
    · subst hin
      have heq : (List.range i).flatMap g2 = (List.range i).flatMap g :=
        flatMap_congr_mem _ _ _
          (fun k hk => hg k (Nat.ne_of_lt (List.mem_range.mp hk)))
      rw [heq, hgi, ← List.append_assoc]
      calc ((List.range i).flatMap g ++ g i) ++ [x]
          ~ [x] ++ ((List.range i).flatMap g ++ g i) := List.perm_append_comm
        _ = x :: ((List.range i).flatMap g ++ g i) := rfl
    · have hi2 : i < n := by omega
      have hgn : g2 n = g n := hg n (fun h => hin h.symm)
      rw [hgn]
      exact (ih hi2).append_right (g n)

theorem pushList_rows_length (nrow : ℕ) (ps : List (ℕ × ℕ × ℚ)) :
    ((WeightMatrix.init nrow).pushList ps).rows.length = nrow := by
  induction ps using List.reverseRecOn with
  | nil => simp [WeightMatrix.pushList, WeightMatrix.init]
  | append_singleton ps t ih =>
    unfold WeightMatrix.pushList at *
    rw [List.foldl_append]
    simp only [List.foldl_cons, List.foldl_nil]
    show (List.set _ _ _).length = nrow
    rw [List.length_set]
    exact ih

theorem push_triples (m : WeightMatrix) (i j : ℕ) (w : ℚ) (hi : i < m.rows.length) :
    (m.push i j w).triples ~ (i, j, w) :: m.triples := by
  unfold WeightMatrix.triples WeightMatrix.push
  simp only [List.length_set]
  refine flatMap_range_update m.rows.length i hi _ _ _ ?_ ?_
  · intro k hk
    have : (m.rows.set i (m.rows.getD i [] ++ [(j, w)])).getD k [] =
        m.rows.getD k [] := by
      rw [List.getD_eq_getElem?_getD, List.getElem?_set_ne (fun h => hk h.symm),
        ← List.getD_eq_getElem?_getD]
    rw [this]
  · have : (m.rows.set i (m.rows.getD i [] ++ [(j, w)])).getD i [] =
        m.rows.getD i [] ++ [(j, w)] := by
      rw [List.getD_eq_getElem?_getD, List.getElem?_set_self hi]
      rfl
    rw [this, List.map_append]
    rfl

theorem pushList_triples (nrow : ℕ) (ps : List (ℕ × ℕ × ℚ))
    (hrow : ∀ t ∈ ps, t.1 < nrow) :
    ((WeightMatrix.init nrow).pushList ps).triples ~ ps := by
  induction ps using List.reverseRecOn with
  | nil =>
    unfold WeightMatrix.pushList WeightMatrix.triples WeightMatrix.init
    simp only [List.foldl_nil, List.length_replicate]
    have : ∀ i ∈ List.range nrow,
        ((List.replicate nrow ([] : List (ℕ × ℚ))).getD i []).map
          (fun e => (i, e.1, e.2)) = [] := by
      intro i hi
      rw [List.getD_eq_getElem?_getD, List.getElem?_replicate]
      by_cases h : i < nrow <;> simp [h]
    rw [flatMap_congr_mem _ _ (fun _ => []) this]
    simp
  | append_singleton ps t ih =>
    unfold WeightMatrix.pushList at *
    rw [List.foldl_append]
    simp only [List.foldl_cons, List.foldl_nil]
    have hlen : (List.foldl (fun acc t => acc.push t.1 t.2.1 t.2.2)
        (WeightMatrix.init nrow) ps).rows.length = nrow := pushList_rows_length nrow ps
    have ht : t.1 < nrow := hrow t (List.mem_append_right ps (List.mem_cons_self t []))
    have hstep := push_triples (List.foldl (fun acc t => acc.push t.1 t.2.1 t.2.2)
        (WeightMatrix.init nrow) ps) t.1 t.2.1 t.2.2 (by rw [hlen]; exact ht)
    have hcast : ((List.foldl (fun acc t => acc.push t.1 t.2.1 t.2.2)
        (WeightMatrix.init nrow) ps).push t.1 t.2.1 t.2.2).triples ~
        (t.1, t.2.1, t.2.2) :: ps :=
      hstep.trans ((ih (fun x hx => hrow x (List.mem_append_left _ hx))).cons _)
    calc ((List.foldl (fun acc t => acc.push t.1 t.2.1 t.2.2)
          (WeightMatrix.init nrow) ps).push t.1 t.2.1 t.2.2).triples
        ~ (t.1, t.2.1, t.2.2) :: ps := hcast
      _ = t :: ps := rfl
      _ ~ ps ++ [t] := (@List.perm_append_comm _ [t] ps).trans
          (List.Perm.refl _)

theorem compact_triples (m : WeightMatrix) :
    m.compact.1.triples ~
      m.triples.map (fun t => (t.1, newIdx m t.2.1, t.2.2)) := by
  unfold WeightMatrix.compact WeightMatrix.triples
  simp only [List.length_map]
  have hrow : ∀ i ∈ List.range m.rows.length,
      ((m.rows.map (fun r => sortrow (r.map (fun e => (newIdx m e.1, e.2))))).getD i []).map
          (fun e => (i, e.1, e.2)) ~
        ((m.rows.getD i []).map (fun e => (i, e.1, e.2))).map
          (fun t => (t.1, newIdx m t.2.1, t.2.2)) := by
    intro i hi
    have hil : i < m.rows.length := List.mem_range.mp hi
    have hget : (m.rows.map
        (fun r => sortrow (r.map (fun e => (newIdx m e.1, e.2))))).getD i [] =
        sortrow ((m.rows.getD i []).map (fun e => (newIdx m e.1, e.2))) := by
      rw [List.getD_eq_getElem?_getD, List.getElem?_map,
        List.getElem?_eq_getElem hil, List.getD_eq_getElem?_getD,
        List.getElem?_eq_getElem hil]
      rfl
    rw [hget]
    have hperm := (sortrow_perm ((m.rows.getD i []).map
      (fun e => (newIdx m e.1, e.2)))).map (fun e : ℕ × ℚ => (i, e.1, e.2))
    refine hperm.trans ?_
    rw [List.map_map, List.map_map]
    exact List.Perm.refl _
  calc (List.range m.rows.length).flatMap
        (fun i => ((m.rows.map
          (fun r => sortrow (r.map (fun e => (newIdx m e.1, e.2))))).getD i []).map
            (fun e => (i, e.1, e.2)))
      ~ (List.range m.rows.length).flatMap
          (fun i => ((m.rows.getD i []).map (fun e => (i, e.1, e.2))).map
            (fun t => (t.1, newIdx m t.2.1, t.2.2))) :=
        flatMap_perm_mem _ _ _ hrow
    _ = ((List.range m.rows.length).flatMap
          (fun i => (m.rows.getD i []).map (fun e => (i, e.1, e.2)))).map
            (fun t => (t.1, newIdx m t.2.1, t.2.2)) := by
        rw [List.map_flatMap]

theorem colUsed_iff (m : WeightMatrix) (j : ℕ) :
    colUsed m j = true ↔ ∃ t ∈ m.triples, t.2.1 = j := by
  unfold colUsed
  rw [List.any_eq_true]
  constructor
  · intro ⟨t, ht, he⟩
    exact ⟨t, ht, by simpa using he⟩
  · intro ⟨t, ht, he⟩
    exact ⟨t, ht, by simpa using he⟩

theorem foldl_max_ge_acc (L : List (ℕ × ℕ × ℚ)) (acc : ℕ) :
    acc ≤ L.foldl (fun a t => max a (t.2.1 + 1)) acc := by
  induction L generalizing acc with
  | nil => exact Nat.le_refl acc
  | cons s L ih =>
    exact le_trans (Nat.le_max_left acc (s.2.1 + 1)) (ih (max acc (s.2.1 + 1)))

theorem foldl_max_mem (L : List (ℕ × ℕ × ℚ)) (acc : ℕ) (t : ℕ × ℕ × ℚ)
    (ht : t ∈ L) : t.2.1 + 1 ≤ L.foldl (fun a t => max a (t.2.1 + 1)) acc := by
  induction L generalizing acc with
  | nil => cases ht
  | cons s L ih =>
    rcases List.mem_cons.mp ht with h | h
    · subst h
      exact le_trans (Nat.le_max_right acc (t.2.1 + 1))
        (foldl_max_ge_acc L (max acc (t.2.1 + 1)))
    · exact ih (max acc (s.2.1 + 1)) h

theorem foldl_max_cases (L : List (ℕ × ℕ × ℚ)) (acc : ℕ) :
    L.foldl (fun a t => max a (t.2.1 + 1)) acc = acc ∨
      ∃ t ∈ L, L.foldl (fun a t => max a (t.2.1 + 1)) acc = t.2.1 + 1 := by
  induction L generalizing acc with
  | nil => exact Or.inl rfl
  | cons s L ih =>
    simp only [List.foldl_cons]
    rcases ih (max acc (s.2.1 + 1)) with h | ⟨t, ht, he⟩
    · by_cases hc : s.2.1 + 1 ≤ acc
      · left
        rw [h]
        omega
      · right
        refine ⟨s, List.mem_cons_self s L, ?_⟩
        rw [h]
        omega
    · exact Or.inr ⟨t, List.mem_cons_of_mem s ht, he⟩

theorem colUsed_lt_max (m : WeightMatrix) (j : ℕ) (h : colUsed m j = true) :
    j < maxColPlus1 m := by
  rcases (colUsed_iff m j).mp h with ⟨t, ht, he⟩
  have := foldl_max_mem m.triples 0 t ht
  unfold maxColPlus1
  omega

theorem maxColPlus1_used (m : WeightMatrix) (hne : m.triples ≠ []) :
    colUsed m (maxColPlus1 m - 1) = true := by
  rcases foldl_max_cases m.triples 0 with h | ⟨t, ht, he⟩
  · exfalso
    rcases List.exists_mem_of_ne_nil m.triples hne with ⟨t, ht⟩
    have := foldl_max_mem m.triples 0 t ht
    unfold maxColPlus1 at *
    omega
  · have : maxColPlus1 m - 1 = t.2.1 := by
      unfold maxColPlus1
      omega
    rw [this]
    exact (colUsed_iff m t.2.1).mpr ⟨t, ht, rfl⟩

theorem newIdx_succ (m : WeightMatrix) (j : ℕ) :
    newIdx m (j + 1) = newIdx m j + (if colUsed m j then 1 else 0) := by
  unfold newIdx
  rw [List.range_succ, List.filter_append]
  simp only [List.filter_cons, List.filter_nil, List.length_append]
  by_cases h : colUsed m j <;> simp [h]

theorem newIdx_mono (m : WeightMatrix) (j1 j2 : ℕ) (h : j1 ≤ j2) :
    newIdx m j1 ≤ newIdx m j2 := by
  unfold newIdx
  exact ((List.range_sublist.mpr h).filter _).length_le

theorem newIdx_strict (m : WeightMatrix) (j1 j2 : ℕ) (hu : colUsed m j1 = true)
    (h : j1 < j2) : newIdx m j1 < newIdx m j2 := by
  have h1 : newIdx m (j1 + 1) = newIdx m j1 + 1 := by
    rw [newIdx_succ, if_pos hu]
  have h2 : newIdx m (j1 + 1) ≤ newIdx m j2 := newIdx_mono m (j1 + 1) j2 h
  omega

theorem newIdx_surj (m : WeightMatrix) (n k : ℕ) (h : k < newIdx m n) :
    ∃ j, j < n ∧ colUsed m j = true ∧ newIdx m j = k := by
  induction n with
  | zero =>
    exfalso
    unfold newIdx at h
    simp at h
  | succ n ih =>
    rw [newIdx_succ] at h
    by_cases hc : colUsed m n
    · rw [if_pos hc] at h
      by_cases hk : k < newIdx m n
      · rcases ih hk with ⟨j, hj1, hj2, hj3⟩
        exact ⟨j, by omega, hj2, hj3⟩
      · exact ⟨n, by omega, hc, by omega⟩
    · rw [if_neg hc] at h
      rcases ih (by omega) with ⟨j, hj1, hj2, hj3⟩
      exact ⟨j, by omega, hj2, hj3⟩

theorem ncol_eq_numUsed (m : WeightMatrix) (hne : m.triples ≠ []) :
    newIdx m (maxColPlus1 m - 1) + 1 = newIdx m (maxColPlus1 m) := by
  have hused := maxColPlus1_used m hne
  have hpos : 0 < maxColPlus1 m := by
    rcases List.exists_mem_of_ne_nil m.triples hne with ⟨t, ht⟩
    have := foldl_max_mem m.triples 0 t ht
    unfold maxColPlus1
    omega
  calc newIdx m (maxColPlus1 m - 1) + 1
      = newIdx m ((maxColPlus1 m - 1) + 1) := by rw [newIdx_succ, if_pos hused]
    _ = newIdx m (maxColPlus1 m) := by
        congr 1
        omega

/-- Matrix built by a sequence of `push(row, col, weight)` calls on a fresh
`WeightMatrix(nrow)`. -/
def builtMatrix (nrow : ℕ) (ps : List (ℕ × ℕ × ℚ)) : WeightMatrix :=
  (WeightMatrix.init nrow).pushList ps

/-- C1: for a nonempty sequence of `push` calls with in-range rows,
`compact()` followed by iterating all (row, col, weight) triples reproduces
every pushed weight exactly once (the triples are a permutation of the
pushes with columns renamed by the returned map); all row indices are in
`[0, nrow)` and all column indices in `[0, ncol)`; `ncol` equals the number
of distinct columns pushed; every row is sorted by ascending column index;
and the returned old-to-new map renumbers the used columns contiguously
from 0 preserving their relative order (strictly monotone on used columns,
image exactly `[0, ncol)`).  With no pushes at all the source reads
`newidx[ncol - 1]` out of bounds, hence the nonemptiness hypothesis. -/
theorem weight_matrix_compact (nrow : ℕ) (ps : List (ℕ × ℕ × ℚ))
    (hrow : ∀ t ∈ ps, t.1 < nrow) (hne : ps ≠ []) :
    (builtMatrix nrow ps).compact.1.triples ~
      ps.map (fun t => (t.1, (builtMatrix nrow ps).compact.2 t.2.1, t.2.2)) ∧
    (∀ t ∈ (builtMatrix nrow ps).compact.1.triples,
      t.1 < nrow ∧ t.2.1 < (builtMatrix nrow ps).compact.1.ncol) ∧
    (builtMatrix nrow ps).compact.1.ncol =
      (ps.map (fun t => t.2.1)).dedup.length ∧
    (∀ r ∈ (builtMatrix nrow ps).compact.1.rows,
      r.Pairwise (fun a b => a.1 ≤ b.1)) ∧
    (∀ j1 j2, colUsed (builtMatrix nrow ps) j1 = true →
      colUsed (builtMatrix nrow ps) j2 = true → j1 < j2 →
      (builtMatrix nrow ps).compact.2 j1 < (builtMatrix nrow ps).compact.2 j2) ∧
    (∀ j, colUsed (builtMatrix nrow ps) j = true →
      (builtMatrix nrow ps).compact.2 j < (builtMatrix nrow ps).compact.1.ncol) ∧
    (∀ k, k < (builtMatrix nrow ps).compact.1.ncol →
      ∃ j, colUsed (builtMatrix nrow ps) j = true ∧
        (builtMatrix nrow ps).compact.2 j = k) := by
  have htr : (builtMatrix nrow ps).triples ~ ps := pushList_triples nrow ps hrow
  have htrne : (builtMatrix nrow ps).triples ≠ [] := by
    intro h
    apply hne
    rw [h] at htr
    exact (htr.symm.eq_nil)
  have hmap : (builtMatrix nrow ps).compact.2 = newIdx (builtMatrix nrow ps) := rfl
  have hncol : (builtMatrix nrow ps).compact.1.ncol =
      newIdx (builtMatrix nrow ps) (maxColPlus1 (builtMatrix nrow ps)) :=
    ncol_eq_numUsed (builtMatrix nrow ps) htrne
  have hperm : (builtMatrix nrow ps).compact.1.triples ~
      ps.map (fun t => (t.1, (builtMatrix nrow ps).compact.2 t.2.1, t.2.2)) :=
    (compact_triples (builtMatrix nrow ps)).trans
      (htr.map (fun t => (t.1, newIdx (builtMatrix nrow ps) t.2.1, t.2.2)))
  have hbound : ∀ j, colUsed (builtMatrix nrow ps) j = true →
      (builtMatrix nrow ps).compact.2 j < (builtMatrix nrow ps).compact.1.ncol := by
    intro j hj
    rw [hncol, hmap]
    exact newIdx_strict (builtMatrix nrow ps) j _ hj
      (colUsed_lt_max (builtMatrix nrow ps) j hj)
  refine ⟨hperm, ?_, ?_, ?_, ?_, hbound, ?_⟩
  · intro t ht
    have ht2 := hperm.mem_iff.mp ht
    rcases List.mem_map.mp ht2 with ⟨s, hs, he⟩
    have hused : colUsed (builtMatrix nrow ps) s.2.1 = true :=
      (colUsed_iff _ _).mpr ⟨s, htr.mem_iff.mpr hs, rfl⟩
    constructor
    · rw [← he]
      exact hrow s hs
    · rw [← he]
      exact hbound s.2.1 hused
  · rw [hncol]
    show ((List.range (maxColPlus1 (builtMatrix nrow ps))).filter
      (fun i => colUsed (builtMatrix nrow ps) i)).length = _
    have hnodupA : ((List.range (maxColPlus1 (builtMatrix nrow ps))).filter
        (fun i => colUsed (builtMatrix nrow ps) i)).Nodup :=
      (List.nodup_range _).filter _
    have hnodupB : ((ps.map (fun t => t.2.1)).dedup).Nodup := List.nodup_dedup _
    have hmem : ∀ j, j ∈ (List.range (maxColPlus1 (builtMatrix nrow ps))).filter
        (fun i => colUsed (builtMatrix nrow ps) i) ↔
        j ∈ (ps.map (fun t => t.2.1)).dedup := by
      intro j
      rw [List.mem_filter, List.mem_dedup, List.mem_range]
      constructor
      · intro ⟨_, hu⟩
        rcases (colUsed_iff _ _).mp hu with ⟨t, ht, he⟩
        exact List.mem_map.mpr ⟨t, htr.mem_iff.mp ht, he⟩
      · intro hj
        rcases List.mem_map.mp hj with ⟨t, ht, he⟩
        have hu : colUsed (builtMatrix nrow ps) j = true :=
          (colUsed_iff _ _).mpr ⟨t, htr.mem_iff.mpr ht, he⟩
        exact ⟨colUsed_lt_max _ _ hu, hu⟩
    exact ((List.perm_ext_iff_of_nodup hnodupA hnodupB).mpr hmem).length_eq
  · intro r hr
    rcases List.mem_map.mp hr with ⟨r0, _, he⟩
    rw [← he]
    exact sortrow_sorted _
  · intro j1 j2 h1 _ hlt
    rw [hmap]
    exact newIdx_strict (builtMatrix nrow ps) j1 j2 h1 hlt
  · intro k hk
    rw [hncol] at hk
    rcases newIdx_surj (builtMatrix nrow ps) _ k hk with ⟨j, _, hu, he⟩
    exact ⟨j, hu, he⟩

/-- Witness for C1 at `nrow = 2` with pushes
`(0,5,1), (1,2,1/2), (0,2,3)`: two distinct columns survive compaction. -/
theorem weight_matrix_compact_witness :
    (∀ t ∈ [((0 : ℕ), (5 : ℕ), (1 : ℚ)), (1, 2, 1/2), (0, 2, 3)], t.1 < 2) ∧
    ([((0 : ℕ), (5 : ℕ), (1 : ℚ)), (1, 2, 1/2), (0, 2, 3)] :
      List (ℕ × ℕ × ℚ)) ≠ [] ∧
    (builtMatrix 2 [((0 : ℕ), (5 : ℕ), (1 : ℚ)), (1, 2, 1/2), (0, 2, 3)]).compact.1.ncol =
      (([((0 : ℕ), (5 : ℕ), (1 : ℚ)), (1, 2, 1/2), (0, 2, 3)]).map
        (fun t => t.2.1)).dedup.length :=
  ⟨by decide, by decide,
    (weight_matrix_compact 2 [((0 : ℕ), (5 : ℕ), (1 : ℚ)), (1, 2, 1/2), (0, 2, 3)]
      (by decide) (by decide)).2.2.1⟩

/-! ### Union-find and component labeling (sampler.cpp, disjset_find /
disjset_union lines 1038-1053, Sampler::Sampler lines 1132-1160)

The disjoint-set array over `N = ncol + nrow` elements (fragments first,
then transcripts at offset `ncol`) is a map `ℕ → ℕ`; `disjset_find`
recursively follows parents and path-compresses
(`return ds[i] = disjset_find(ds, ds[i])`), modelled by explicit state
passing with fuel `N` (parent chains in a forest on `N` nodes are shorter
than `N`); `disjset_union(ds, i, j)` links the root of `j` under the root of
`i`.  The constructor unions `(ncol + row, col)` for every nonzero entry,
then runs a full find pass and labels the resulting root values by first
occurrence over `i = 0..N-1`. -/

/-- Proper parent step of the disjoint-set forest. -/
def dstep (ds : ℕ → ℕ) (u v : ℕ) : Prop := ds u = v ∧ ds u ≠ u

/-- Reachability along parent pointers. -/
def dreaches (ds : ℕ → ℕ) : ℕ → ℕ → Prop := Relation.ReflTransGen (dstep ds)

/-- Root of the forest: `ds[r] == r`. -/
def isRoot (ds : ℕ → ℕ) (r : ℕ) : Prop := ds r = r

/-- Specification of `disjset_find`: `r` is the root of `i`'s chain. -/
def rootp (ds : ℕ → ℕ) (i r : ℕ) : Prop := dreaches ds i r ∧ isRoot ds r

/-- Well-formed disjoint-set state over `[0, N)`: in-range parents, identity
outside the array, and an acyclic (measure-decreasing) parent structure. -/
def DSWF (N : ℕ) (ds : ℕ → ℕ) : Prop :=
  (∀ i, i < N → ds i < N) ∧ (∀ i, N ≤ i → ds i = i) ∧
    ∃ o : ℕ → ℕ, ∀ i, ds i ≠ i → o (ds i) < o i

/-- Fuel-bounded pure root computation (the value `disjset_find` returns). -/
def rootAux : ℕ → (ℕ → ℕ) → ℕ → ℕ
  | 0, _, i => i
  | fuel + 1, ds, i => if ds i = i then i else rootAux fuel ds (ds i)

/-- Function `disjset_find` with path compression: returns the updated array
and the root; every node on the chain is re-parented to the root
(`ds[i] = disjset_find(ds, ds[i])`). -/
def dsFind : ℕ → (ℕ → ℕ) → ℕ → (ℕ → ℕ) × ℕ
  | 0, ds, i => (ds, i)
  | fuel + 1, ds, i =>
    if ds i = i then (ds, i)
    else
      let res := dsFind fuel ds (ds i)
      (Function.update res.1 i res.2, res.2)

/-- Function `disjset_union(ds, i, j)`: `a = find(i); b = find(j);
ds[b] = a`, with the two finds compressing the state in order. -/
def dsUnion (N : ℕ) (ds : ℕ → ℕ) (i j : ℕ) : ℕ → ℕ :=
  Function.update (dsFind N (dsFind N ds i).1 j).1
    (dsFind N (dsFind N ds i).1 j).2 (dsFind N ds i).2

theorem root_no_step (ds : ℕ → ℕ) (r v : ℕ) (hr : isRoot ds r) :
    ¬dstep ds r v := fun ⟨_, hne⟩ => hne hr

theorem dreaches_root_eq (ds : ℕ → ℕ) (r : ℕ) (hr : isRoot ds r) :
    ∀ x, dreaches ds r x → x = r := by
  intro x h
  induction h with
  | refl => rfl
  | tail hre hstep ih =>
    rename_i m k
    rw [ih] at hstep
    exact absurd hstep (root_no_step ds r _ hr)

theorem dreaches_root_unique (ds : ℕ → ℕ) (i r1 : ℕ)
    (h1 : dreaches ds i r1) : isRoot ds r1 →
      ∀ r2, dreaches ds i r2 → isRoot ds r2 → r1 = r2 := by
  induction h1 using Relation.ReflTransGen.head_induction_on with
  | refl =>
    intro hrt1 r2 h2 _
    exact (dreaches_root_eq ds r1 hrt1 r2 h2).symm
  | head hstep htail ih =>
    rename_i a c
    intro hrt1 r2 h2 hrt2
    rcases Relation.ReflTransGen.cases_head h2 with he | ⟨b2, hstep2, h2b⟩
    · subst he
      exact absurd hstep (root_no_step ds a _ hrt2)
    · have hb : b2 = c := by
        rcases hstep with ⟨he1, _⟩
        rcases hstep2 with ⟨he2, _⟩
        rw [← he1, he2]
      subst hb
      exact ih hrt1 r2 h2b hrt2

theorem rootp_unique (ds : ℕ → ℕ) (i r1 r2 : ℕ) (h1 : rootp ds i r1)
    (h2 : rootp ds i r2) : r1 = r2 :=
  dreaches_root_unique ds i r1 h1.1 h1.2 r2 h2.1 h2.2

theorem rootp_step (ds : ℕ → ℕ) (i r : ℕ) (hne : ds i ≠ i) :
    rootp ds (ds i) r ↔ rootp ds i r := by
  constructor
  · intro ⟨hre, hrt⟩
    exact ⟨Relation.ReflTransGen.head ⟨rfl, hne⟩ hre, hrt⟩
  · intro ⟨hre, hrt⟩
    rcases Relation.ReflTransGen.cases_head hre with h | ⟨b, hstep, hre2⟩
    · refine absurd ?_ hne
      rw [h]
      exact hrt
    · rcases hstep with ⟨he, _⟩
      rw [he]
      exact ⟨hre2, hrt⟩

theorem o_strict_of_dreaches (ds : ℕ → ℕ) (o : ℕ → ℕ)
    (ho : ∀ i, ds i ≠ i → o (ds i) < o i) (a b : ℕ) (h : dreaches ds a b) :
    b ≠ a → o b < o a := by
  induction h with
  | refl => intro hne; exact absurd rfl hne
  | tail hre hstep ih =>
    rename_i m k
    intro _
    rcases hstep with ⟨he, hner⟩
    by_cases hma : m = a
    · rw [hma] at he hner
      rw [← he]
      exact ho a hner
    · have h1 : o m < o a := ih hma
      have h2 : o k < o m := by
        rw [← he]
        exact ho m hner
      omega

theorem dreaches_lt (N : ℕ) (ds : ℕ → ℕ) (hwf : DSWF N ds) (a b : ℕ)
    (ha : a < N) (h : dreaches ds a b) : b < N := by
  induction h with
  | refl => exact ha
  | tail _ hstep ih =>
    rcases hstep with ⟨he, _⟩
    rw [← he]
    exact hwf.1 _ ih

theorem rootp_exists (N : ℕ) (ds : ℕ → ℕ) (hwf : DSWF N ds) (i : ℕ) :
    ∃ r, rootp ds i r := by
  rcases hwf with ⟨hbound, hout, o, ho⟩
  by_cases hi : i < N
  · by_cases hroot : ds i = i
    · exact ⟨i, Relation.ReflTransGen.refl, hroot⟩
    · have : ∀ n i, o i ≤ n → i < N → ∃ r, rootp ds i r := by
        intro n
        induction n with
        | zero =>
          intro i hoi hiN
          by_cases hr : ds i = i
          · exact ⟨i, Relation.ReflTransGen.refl, hr⟩
          · exact absurd (ho i hr) (by omega)
        | succ n ih =>
          intro i hoi hiN
          by_cases hr : ds i = i
          · exact ⟨i, Relation.ReflTransGen.refl, hr⟩
          · have h2 : o (ds i) ≤ n := by
              have := ho i hr
              omega
            rcases ih (ds i) h2 (hbound i hiN) with ⟨r, hre, hrt⟩
            exact ⟨r, Relation.ReflTransGen.head ⟨rfl, hr⟩ hre, hrt⟩
      exact this (o i) i (Nat.le_refl _) hi
  · exact ⟨i, Relation.ReflTransGen.refl, hout i (by omega)⟩

theorem rootAux_correct_of_fuel (ds : ℕ → ℕ) (fuel : ℕ) :
    ∀ i, (∃ k, k ≤ fuel ∧ isRoot ds (ds^[k] i)) →
      rootp ds i (rootAux fuel ds i) := by
  induction fuel with
  | zero =>
    intro i ⟨k, hk, hr⟩
    have hk0 : k = 0 := by omega
    subst hk0
    exact ⟨Relation.ReflTransGen.refl, hr⟩
  | succ fuel ih =>
    intro i ⟨k, hk, hr⟩
    by_cases hi : ds i = i
    · rw [rootAux, if_pos hi]
      exact ⟨Relation.ReflTransGen.refl, hi⟩
    · rw [rootAux, if_neg hi]
      have hkpos : k ≠ 0 := by
        intro h0
        subst h0
        exact hi hr
      have hr2 : isRoot ds (ds^[k - 1] (ds i)) := by
        have heq : ds^[k] i = ds^[k - 1] (ds i) := by
          have hk1 : k = (k - 1) + 1 := by omega
          conv_lhs => rw [hk1]
          rw [Function.iterate_succ_apply]
        rw [← heq]
        exact hr
      have := ih (ds i) ⟨k - 1, by omega, hr2⟩
      exact (rootp_step ds i _ hi).mp this

theorem exists_root_iterate (N : ℕ) (ds : ℕ → ℕ) (hwf : DSWF N ds) (i : ℕ) :
    ∃ k, k ≤ N ∧ isRoot ds (ds^[k] i) := by
  rcases hwf with ⟨hbound, hout, o, ho⟩
  by_cases hi : i < N
  · by_contra hno
    push_neg at hno
    have hiter_lt : ∀ k, ds^[k] i < N := by
      intro k
      induction k with
      | zero => exact hi
      | succ k ihk =>
        rw [Function.iterate_succ_apply']
        exact hbound _ ihk
    have hstepo : ∀ k, k < N → o (ds^[k + 1] i) < o (ds^[k] i) := by
      intro k hkN
      rw [Function.iterate_succ_apply']
      exact ho _ (hno k (by omega))
    have hmono : ∀ k1 k2, k1 < k2 → k2 ≤ N → o (ds^[k2] i) < o (ds^[k1] i) := by
      intro k1 k2 h12 h2N
      induction k2 with
      | zero => omega
      | succ k2 ihk =>
        by_cases he : k1 = k2
        · subst he
          exact hstepo k1 (by omega)
        · have h1 : o (ds^[k2] i) < o (ds^[k1] i) := ihk (by omega) (by omega)
          have h2 : o (ds^[k2 + 1] i) < o (ds^[k2] i) := hstepo k2 (by omega)
          omega
    have hinj : Set.InjOn (fun k => ds^[k] i) (Finset.range (N + 1)) := by
      intro k1 h1 k2 h2 he
      simp only [Finset.coe_range, Set.mem_Iio] at h1 h2
      have he2 : ds^[k1] i = ds^[k2] i := he
      by_contra hne
      rcases Nat.lt_or_ge k1 k2 with h | h
      · have := hmono k1 k2 h (by omega)
        rw [he2] at this
        omega
      · have hlt : k2 < k1 := by omega
        have := hmono k2 k1 hlt (by omega)
        rw [he2] at this
        omega
    have hmaps : ∀ k ∈ Finset.range (N + 1),
        (fun k => ds^[k] i) k ∈ Finset.range N := by
      intro k _
      exact Finset.mem_range.mpr (hiter_lt k)
    have hcard := Finset.card_le_card_of_injOn (fun k => ds^[k] i) hmaps hinj
    simp only [Finset.card_range] at hcard
    omega
  · exact ⟨0, by omega, hout i (by omega)⟩

theorem rootp_rootAux (N : ℕ) (ds : ℕ → ℕ) (hwf : DSWF N ds) (i : ℕ) :
    rootp ds i (rootAux N ds i) :=
  rootAux_correct_of_fuel ds N i
    (by rcases exists_root_iterate N ds hwf i with ⟨k, hk, hr⟩; exact ⟨k, hk, hr⟩)

theorem rootp_in_range (N : ℕ) (ds : ℕ → ℕ) (hwf : DSWF N ds) (i r : ℕ)
    (hi : i < N) (h : rootp ds i r) : r < N :=
  dreaches_lt N ds hwf i r hi h.1

theorem rootp_refl_of_root (ds : ℕ → ℕ) (r : ℕ) (hr : isRoot ds r) :
    rootp ds r r := ⟨Relation.ReflTransGen.refl, hr⟩

theorem reparent_spec (N : ℕ) (ds : ℕ → ℕ) (x r : ℕ) (hwf : DSWF N ds)
    (hx : x < N) (hr : rootp ds x r) :
    DSWF N (Function.update ds x r) ∧
      ∀ y r0, rootp (Function.update ds x r) y r0 ↔ rootp ds y r0 := by
  by_cases hxr : x = r
  · have hdx : ds x = x := by
      rw [hxr]
      exact hr.2
    have hds : Function.update ds x r = ds := by
      funext y
      by_cases hyx : y = x
      · subst hyx
        rw [Function.update_same, hdx, ← hxr]
      · rw [Function.update_noteq hyx]
    rw [hds]
    exact ⟨hwf, fun _ _ => Iff.rfl⟩
  · have hrx : r ≠ x := fun h => hxr h.symm
    have hwf2 : DSWF N (Function.update ds x r) := by
      rcases hwf with ⟨hbound, hout, o, ho⟩
      refine ⟨?_, ?_, o, ?_⟩
      · intro i hi
        by_cases hix : i = x
        · subst hix
          rw [Function.update_same]
          exact rootp_in_range N ds ⟨hbound, hout, o, ho⟩ i r hx hr
        · rw [Function.update_noteq hix]
          exact hbound i hi
      · intro i hi
        have hix : i ≠ x := by omega
        rw [Function.update_noteq hix]
        exact hout i hi
      · intro i hne
        by_cases hix : i = x
        · subst hix
          rw [Function.update_same] at hne ⊢
          exact o_strict_of_dreaches ds o ho i r hr.1 hrx
        · rw [Function.update_noteq hix] at hne ⊢
          exact ho i hne
    have hforward : ∀ y r0, rootp ds y r0 →
        rootp (Function.update ds x r) y r0 := by
      intro y r0 ⟨hre, hrt0⟩
      have hr0x : r0 ≠ x := by
        intro he
        have hrtx : isRoot ds x := he ▸ hrt0
        have h1 : rootp ds x x := rootp_refl_of_root ds x hrtx
        exact hxr (rootp_unique ds x x r h1 hr)
      have hroot2 : isRoot (Function.update ds x r) r0 := by
        unfold isRoot
        rw [Function.update_noteq hr0x]
        exact hrt0
      refine ⟨?_, hroot2⟩
      clear hroot2
      induction hre using Relation.ReflTransGen.head_induction_on with
      | refl => exact Relation.ReflTransGen.refl
      | head hstep htail ih =>
        rename_i u c
        by_cases hux : u = x
        · have hr0r : r0 = r := by
            have h1 : rootp ds u r0 :=
              ⟨Relation.ReflTransGen.head hstep htail, hrt0⟩
            rw [hux] at h1
            exact rootp_unique ds x r0 r h1 hr
          subst hux
          rw [hr0r]
          refine Relation.ReflTransGen.single ⟨?_, ?_⟩
          · exact Function.update_same u r ds
          · rw [Function.update_same]
            exact hrx
        · refine Relation.ReflTransGen.head ⟨?_, ?_⟩ ih
          · rw [Function.update_noteq hux]
            exact hstep.1
          · rw [Function.update_noteq hux]
            exact hstep.2
    constructor
    · exact hwf2
    · intro y r0
      constructor
      · intro h2
        rcases rootp_exists N ds hwf y with ⟨r1, h1⟩
        have h12 := hforward y r1 h1
        have he : r0 = r1 := rootp_unique (Function.update ds x r) y r0 r1 h2 h12
        rw [he]
        exact h1
      · exact hforward y r0

theorem link_spec (N : ℕ) (ds : ℕ → ℕ) (a b : ℕ) (hwf : DSWF N ds)
    (ha : isRoot ds a) (hb : isRoot ds b) (haN : a < N) (hbN : b < N) :
    DSWF N (Function.update ds b a) ∧
      ∀ y r0, rootp ds y r0 →
        rootp (Function.update ds b a) y (if r0 = b then a else r0) := by
  by_cases hab : a = b
  · have hds : Function.update ds b a = ds := by
      funext y
      by_cases hyb : y = b
      · subst hyb
        rw [Function.update_same, hab]
        exact hb.symm
      · rw [Function.update_noteq hyb]
    rw [hds]
    refine ⟨hwf, ?_⟩
    intro y r0 h0
    by_cases he : r0 = b
    · rw [if_pos he, hab, ← he]
      exact h0
    · rw [if_neg he]
      exact h0
  · have hwf0 := hwf
    rcases hwf with ⟨hbound, hout, o, ho⟩
    have hRconst : ∀ u, ds u ≠ u →
        rootAux N ds (ds u) = rootAux N ds u := by
      intro u hu
      have h1 := rootp_rootAux N ds hwf0 u
      have h2 := rootp_rootAux N ds hwf0 (ds u)
      have h3 : rootp ds u (rootAux N ds (ds u)) :=
        (rootp_step ds u _ hu).mp h2
      exact rootp_unique ds u _ _ h3 h1
    have hRa : rootAux N ds a = a :=
      rootp_unique ds a _ _ (rootp_rootAux N ds hwf0 a)
        (rootp_refl_of_root ds a ha)
    have hRb : rootAux N ds b = b :=
      rootp_unique ds b _ _ (rootp_rootAux N ds hwf0 b)
        (rootp_refl_of_root ds b hb)
    have hwf2 : DSWF N (Function.update ds b a) := by
      refine ⟨?_, ?_,
        fun x => if rootAux N ds x = b then o x + (o a + 1) else o x, ?_⟩
      · intro i hi
        by_cases hib : i = b
        · subst hib
          rw [Function.update_same]
          exact haN
        · rw [Function.update_noteq hib]
          exact hbound i hi
      · intro i hi
        have hib : i ≠ b := by omega
        rw [Function.update_noteq hib]
        exact hout i hi
      · intro i hne
        dsimp only
        by_cases hib : i = b
        · rw [hib] at hne ⊢
          rw [Function.update_same] at hne ⊢
          rw [hRa, hRb]
          rw [if_neg hab, if_pos rfl]
          omega
        · rw [Function.update_noteq hib] at hne ⊢
          have hconst := hRconst i hne
          rw [hconst]
          by_cases hc : rootAux N ds i = b
          · rw [if_pos hc, if_pos hc]
            have := ho i hne
            omega
          · rw [if_neg hc, if_neg hc]
            exact ho i hne
    refine ⟨hwf2, ?_⟩
    intro y r0 ⟨hre, hrt0⟩
    have hpath : dreaches (Function.update ds b a) y r0 := by
      induction hre using Relation.ReflTransGen.head_induction_on with
      | refl => exact Relation.ReflTransGen.refl
      | head hstep htail ih =>
        rename_i u c
        have hub : u ≠ b := by
          intro he
          rw [he] at hstep
          exact hstep.2 hb
        refine Relation.ReflTransGen.head ⟨?_, ?_⟩ ih
        · rw [Function.update_noteq hub]
          exact hstep.1
        · rw [Function.update_noteq hub]
          exact hstep.2
    by_cases he : r0 = b
    · rw [if_pos he]
      rw [he] at hpath
      refine ⟨Relation.ReflTransGen.tail hpath ⟨?_, ?_⟩, ?_⟩
      · exact Function.update_same b a ds
      · rw [Function.update_same]
        exact hab
      · unfold isRoot
        rw [Function.update_noteq hab]
        exact ha
    · rw [if_neg he]
      refine ⟨hpath, ?_⟩
      unfold isRoot
      rw [Function.update_noteq he]
      exact hrt0

theorem dsFind_snd (fuel : ℕ) (ds : ℕ → ℕ) (i : ℕ) :
    (dsFind fuel ds i).2 = rootAux fuel ds i := by
  induction fuel generalizing ds i with
  | zero => rfl
  | succ fuel ih =>
    rw [dsFind, rootAux]
    by_cases h : ds i = i
    · rw [if_pos h, if_pos h]
    · rw [if_neg h, if_neg h]
      show (dsFind fuel ds (ds i)).2 = _
      exact ih ds (ds i)

theorem dsFind_state (N : ℕ) (fuel : ℕ) :
    ∀ (ds : ℕ → ℕ) (i : ℕ), DSWF N ds → i < N →
      (∃ k, k ≤ fuel ∧ isRoot ds (ds^[k] i)) →
      DSWF N (dsFind fuel ds i).1 ∧
      (∀ y r0, rootp (dsFind fuel ds i).1 y r0 ↔ rootp ds y r0) ∧
      (∀ y, (dsFind fuel ds i).1 y = ds y ∨
        rootp ds y ((dsFind fuel ds i).1 y)) := by
  induction fuel with
  | zero =>
    intro ds i hwf _ _
    exact ⟨hwf, fun _ _ => Iff.rfl, fun _ => Or.inl rfl⟩
  | succ fuel ih =>
    intro ds i hwf hi hex
    by_cases h : ds i = i
    · rw [dsFind, if_pos h]
      exact ⟨hwf, fun _ _ => Iff.rfl, fun _ => Or.inl rfl⟩
    · rw [dsFind, if_neg h]
      have hk : ∃ k, k ≤ fuel ∧ isRoot ds (ds^[k] (ds i)) := by
        rcases hex with ⟨k, hkle, hkr⟩
        have hkpos : k ≠ 0 := by
          intro h0
          subst h0
          exact h hkr
        refine ⟨k - 1, by omega, ?_⟩
        have heq : ds^[k] i = ds^[k - 1] (ds i) := by
          have hk1 : k = (k - 1) + 1 := by omega
          conv_lhs => rw [hk1]
          rw [Function.iterate_succ_apply]
        rw [← heq]
        exact hkr
      have hdsi : ds i < N := hwf.1 i hi
      rcases ih ds (ds i) hwf hdsi hk with ⟨hwf1, hiff1, hval1⟩
      have hrootp : rootp ds (ds i) ((dsFind fuel ds (ds i)).2) := by
        rw [dsFind_snd]
        exact rootAux_correct_of_fuel ds fuel (ds i) hk
      have hrootpi : rootp ds i ((dsFind fuel ds (ds i)).2) :=
        (rootp_step ds i _ h).mp hrootp
      have hrootp1 : rootp (dsFind fuel ds (ds i)).1 i ((dsFind fuel ds (ds i)).2) :=
        (hiff1 i _).mpr hrootpi
      have hrep := reparent_spec N (dsFind fuel ds (ds i)).1 i
        ((dsFind fuel ds (ds i)).2) hwf1 hi hrootp1
      refine ⟨hrep.1, ?_, ?_⟩
      · intro y r0
        exact (hrep.2 y r0).trans (hiff1 y r0)
      · intro y
        have hstate : (dsFind (fuel + 1) ds i).1 =
            Function.update (dsFind fuel ds (ds i)).1 i
              ((dsFind fuel ds (ds i)).2) := by
          rw [dsFind, if_neg h]
        show Function.update (dsFind fuel ds (ds i)).1 i
            ((dsFind fuel ds (ds i)).2) y = ds y ∨
          rootp ds y (Function.update (dsFind fuel ds (ds i)).1 i
            ((dsFind fuel ds (ds i)).2) y)
        by_cases hyi : y = i
        · subst hyi
          rw [Function.update_same]
          exact Or.inr hrootpi
        · rw [Function.update_noteq hyi]
          exact hval1 y

theorem dsFindN_spec (N : ℕ) (ds : ℕ → ℕ) (i : ℕ) (hwf : DSWF N ds)
    (hi : i < N) :
    DSWF N (dsFind N ds i).1 ∧
    (∀ y r0, rootp (dsFind N ds i).1 y r0 ↔ rootp ds y r0) ∧
    (∀ y, (dsFind N ds i).1 y = ds y ∨ rootp ds y ((dsFind N ds i).1 y)) ∧
    rootp ds i ((dsFind N ds i).2) := by
  have hex := exists_root_iterate N ds hwf i
  have hex2 : ∃ k, k ≤ N ∧ isRoot ds (ds^[k] i) := by
    rcases hex with ⟨k, hk, hr⟩
    exact ⟨k, hk, hr⟩
  rcases dsFind_state N N ds i hwf hi hex2 with ⟨h1, h2, h3⟩
  refine ⟨h1, h2, h3, ?_⟩
  rw [dsFind_snd]
  exact rootAux_correct_of_fuel ds N i hex2

theorem dsUnion_spec (N : ℕ) (ds : ℕ → ℕ) (i j : ℕ) (hwf : DSWF N ds)
    (hi : i < N) (hj : j < N) :
    DSWF N (dsUnion N ds i j) ∧
    ∀ y r0, rootp ds y r0 →
      rootp (dsUnion N ds i j) y
        (if r0 = rootAux N ds j then rootAux N ds i else r0) := by
  rcases dsFindN_spec N ds i hwf hi with ⟨hwf1, hiff1, _, hra⟩
  rcases dsFindN_spec N (dsFind N ds i).1 j hwf1 hj with ⟨hwf2, hiff2, _, hrb1⟩
  have hrb : rootp ds j ((dsFind N (dsFind N ds i).1 j).2) :=
    (hiff1 j _).mp hrb1
  have hbeq : (dsFind N (dsFind N ds i).1 j).2 = rootAux N ds j :=
    rootp_unique ds j _ _ hrb (rootp_rootAux N ds hwf j)
  have haeq : (dsFind N ds i).2 = rootAux N ds i := dsFind_snd N ds i
  have haroot2 : isRoot (dsFind N (dsFind N ds i).1 j).1 ((dsFind N ds i).2) :=
    ((hiff2 _ _).mpr ((hiff1 _ _).mpr
      (rootp_refl_of_root ds _ hra.2))).2
  have hbroot2 : isRoot (dsFind N (dsFind N ds i).1 j).1
      ((dsFind N (dsFind N ds i).1 j).2) :=
    ((hiff2 _ _).mpr (rootp_refl_of_root _ _ hrb1.2)).2
  have haN : (dsFind N ds i).2 < N := rootp_in_range N ds hwf i _ hi hra
  have hbN : (dsFind N (dsFind N ds i).1 j).2 < N :=
    rootp_in_range N ds hwf j _ hj hrb
  have hlink := link_spec N (dsFind N (dsFind N ds i).1 j).1
    ((dsFind N ds i).2) ((dsFind N (dsFind N ds i).1 j).2) hwf2
    haroot2 hbroot2 haN hbN
  constructor
  · exact hlink.1
  · intro y r0 h0
    have h2 : rootp (dsFind N (dsFind N ds i).1 j).1 y r0 :=
      (hiff2 y r0).mpr ((hiff1 y r0).mpr h0)
    have hl := hlink.2 y r0 h2
    rw [← hbeq, ← haeq]
    exact hl

/-- Two elements lie in the same disjoint-set class: they share a root. -/
def sameRoot (ds : ℕ → ℕ) (u v : ℕ) : Prop :=
  ∃ r, rootp ds u r ∧ rootp ds v r

theorem sameRoot_iff_rootAux (N : ℕ) (ds : ℕ → ℕ) (hwf : DSWF N ds)
    (u v : ℕ) : sameRoot ds u v ↔ rootAux N ds u = rootAux N ds v := by
  constructor
  · intro ⟨r, hu, hv⟩
    rw [rootp_unique ds u _ r (rootp_rootAux N ds hwf u) hu,
      rootp_unique ds v _ r (rootp_rootAux N ds hwf v) hv]
  · intro h
    refine ⟨rootAux N ds u, rootp_rootAux N ds hwf u, ?_⟩
    rw [h]
    exact rootp_rootAux N ds hwf v

theorem dsUnion_sameRoot (N : ℕ) (ds : ℕ → ℕ) (i j u v : ℕ) (hwf : DSWF N ds)
    (hi : i < N) (hj : j < N) :
    sameRoot (dsUnion N ds i j) u v ↔
      (sameRoot ds u v ∨ (sameRoot ds u i ∧ sameRoot ds v j) ∨
        (sameRoot ds u j ∧ sameRoot ds v i)) := by
  rcases dsUnion_spec N ds i j hwf hi hj with ⟨hwf2, hmapr⟩
  have hnew : ∀ y, rootp (dsUnion N ds i j) y
      (if rootAux N ds y = rootAux N ds j then rootAux N ds i
        else rootAux N ds y) :=
    fun y => hmapr y _ (rootp_rootAux N ds hwf y)
  have hchar : ∀ y, rootAux N (dsUnion N ds i j) y =
      (if rootAux N ds y = rootAux N ds j then rootAux N ds i
        else rootAux N ds y) :=
    fun y => rootp_unique _ y _ _ (rootp_rootAux N _ hwf2 y) (hnew y)
  rw [sameRoot_iff_rootAux N _ hwf2 u v, hchar u, hchar v,
    sameRoot_iff_rootAux N ds hwf u v, sameRoot_iff_rootAux N ds hwf u i,
    sameRoot_iff_rootAux N ds hwf v j, sameRoot_iff_rootAux N ds hwf u j,
    sameRoot_iff_rootAux N ds hwf v i]
  by_cases hu : rootAux N ds u = rootAux N ds j
  · rw [if_pos hu]
    by_cases hv : rootAux N ds v = rootAux N ds j
    · rw [if_pos hv]
      constructor
      · intro _
        exact Or.inl (hu.trans hv.symm)
      · intro _
        rfl
    · rw [if_neg hv]
      constructor
      · intro h
        exact Or.inr (Or.inr ⟨hu, h.symm⟩)
      · intro h
        rcases h with h | ⟨h1, h2⟩ | ⟨h1, h2⟩
        · exact absurd (h.symm.trans hu) hv
        · exact absurd h2 hv
        · exact h2.symm
  · rw [if_neg hu]
    by_cases hv : rootAux N ds v = rootAux N ds j
    · rw [if_pos hv]
      constructor
      · intro h
        exact Or.inr (Or.inl ⟨h, hv⟩)
      · intro h
        rcases h with h | ⟨h1, h2⟩ | ⟨h1, h2⟩
        · exact absurd (h.trans hv) hu
        · exact h1
        · exact absurd h1 hu
    · rw [if_neg hv]
      constructor
      · intro h
        exact Or.inl h
      · intro h
        rcases h with h | ⟨h1, h2⟩ | ⟨h1, h2⟩
        · exact h
        · exact absurd h2 hv
        · exact absurd h1 hu

open Relation in
theorem eqvGen_snoc (r : ℕ → ℕ → Prop) (i j : ℕ) (u v : ℕ) :
    EqvGen (fun a b => r a b ∨ (a = i ∧ b = j)) u v ↔
      (EqvGen r u v ∨ (EqvGen r u i ∧ EqvGen r j v) ∨
        (EqvGen r u j ∧ EqvGen r i v)) := by
  constructor
  · intro h
    induction h with
    | rel a b hab =>
      rcases hab with h1 | ⟨h1, h2⟩
      · exact Or.inl (EqvGen.rel a b h1)
      · subst h1
        subst h2
        exact Or.inr (Or.inl ⟨EqvGen.refl a, EqvGen.refl b⟩)
    | refl a => exact Or.inl (EqvGen.refl a)
    | symm a b _ ih =>
      rcases ih with h1 | ⟨h1, h2⟩ | ⟨h1, h2⟩
      · exact Or.inl (EqvGen.symm a b h1)
      · exact Or.inr (Or.inr ⟨EqvGen.symm _ _ h2, EqvGen.symm _ _ h1⟩)
      · exact Or.inr (Or.inl ⟨EqvGen.symm _ _ h2, EqvGen.symm _ _ h1⟩)
    | trans a b c _ _ ih1 ih2 =>
      rcases ih1 with h1 | ⟨h1, h2⟩ | ⟨h1, h2⟩ <;>
        rcases ih2 with h3 | ⟨h3, h4⟩ | ⟨h3, h4⟩
      · exact Or.inl (EqvGen.trans a b c h1 h3)
      · exact Or.inr (Or.inl ⟨EqvGen.trans a b i h1 h3, h4⟩)
      · exact Or.inr (Or.inr ⟨EqvGen.trans a b j h1 h3, h4⟩)
      · exact Or.inr (Or.inl ⟨h1, EqvGen.trans j b c h2 h3⟩)
      · exact Or.inr (Or.inl ⟨h1, h4⟩)
      · exact Or.inl (EqvGen.trans a i c h1 h4)
      · exact Or.inr (Or.inr ⟨h1, EqvGen.trans i b c h2 h3⟩)
      · exact Or.inl (EqvGen.trans a j c h1 h4)
      · exact Or.inr (Or.inr ⟨h1, h4⟩)
  · have hmono : ∀ x y, EqvGen r x y →
        EqvGen (fun a b => r a b ∨ (a = i ∧ b = j)) x y :=
      fun x y h => EqvGen.mono (fun a b hab => Or.inl hab) h
    have hij : EqvGen (fun a b => r a b ∨ (a = i ∧ b = j)) i j :=
      EqvGen.rel i j (Or.inr ⟨rfl, rfl⟩)
    intro h
    rcases h with h1 | ⟨h1, h2⟩ | ⟨h1, h2⟩
    · exact hmono u v h1
    · exact EqvGen.trans u i v (hmono u i h1)
        (EqvGen.trans i j v hij (hmono j v h2))
    · exact EqvGen.trans u j v (hmono u j h1)
        (EqvGen.trans j i v (EqvGen.symm i j hij) (hmono i v h2))

/-- Union pass of the Sampler constructor: start from the identity array and
apply `disjset_union` for every pair, in order. -/
def unionPairs (N : ℕ) (ps : List (ℕ × ℕ)) : ℕ → ℕ :=
  ps.foldl (fun ds p => dsUnion N ds p.1 p.2) (fun x => x)

theorem DSWF_id (N : ℕ) : DSWF N (fun x => x) :=
  ⟨fun i hi => hi, fun _ _ => rfl, fun _ => 0, fun _ hne => absurd rfl hne⟩

theorem sameRoot_id (u v : ℕ) : sameRoot (fun x => x) u v ↔ u = v := by
  constructor
  · intro ⟨r, hu, hv⟩
    have h1 : r = u := dreaches_root_eq (fun x => x) u rfl r hu.1
    have h2 : r = v := dreaches_root_eq (fun x => x) v rfl r hv.1
    rw [← h1, ← h2]
  · intro h
    subst h
    exact ⟨u, rootp_refl_of_root _ u rfl, rootp_refl_of_root _ u rfl⟩

open Relation in
theorem eqvGen_empty (u v : ℕ) (h : EqvGen (fun _ _ => False) u v) : u = v := by
  induction h with
  | rel a b hab => cases hab
  | refl a => rfl
  | symm a b _ ih => exact ih.symm
  | trans a b c _ _ ih1 ih2 => exact ih1.trans ih2

open Relation in
theorem eqvGen_congr (r r2 : ℕ → ℕ → Prop) (h : ∀ a b, r a b ↔ r2 a b)
    (u v : ℕ) : EqvGen r u v ↔ EqvGen r2 u v := by
  have he : r = r2 := funext fun a => funext fun b => propext (h a b)
  rw [he]

open Relation in
theorem unionPairs_spec (N : ℕ) (ps : List (ℕ × ℕ))
    (hps : ∀ p ∈ ps, p.1 < N ∧ p.2 < N) :
    DSWF N (unionPairs N ps) ∧
    ∀ u v, sameRoot (unionPairs N ps) u v ↔
      EqvGen (fun a b => (a, b) ∈ ps) u v := by
  induction ps using List.reverseRecOn with
  | nil =>
    refine ⟨DSWF_id N, ?_⟩
    intro u v
    rw [show unionPairs N [] = fun x => x from rfl, sameRoot_id u v]
    constructor
    · intro h
      subst h
      exact EqvGen.refl u
    · intro h
      refine eqvGen_empty u v ?_
      refine EqvGen.mono ?_ h
      intro a b hab
      simp at hab
  | append_singleton ps p ih =>
    rcases ih (fun q hq => hps q (List.mem_append_left _ hq)) with ⟨hwf, hiff⟩
    have hp := hps p (List.mem_append_right _ (List.mem_cons_self p []))
    have hfold : unionPairs N (ps ++ [p]) =
        dsUnion N (unionPairs N ps) p.1 p.2 := by
      unfold unionPairs
      rw [List.foldl_append]
      rfl
    refine ⟨?_, ?_⟩
    · rw [hfold]
      exact (dsUnion_spec N (unionPairs N ps) p.1 p.2 hwf hp.1 hp.2).1
    · intro u v
      rw [hfold,
        dsUnion_sameRoot N (unionPairs N ps) p.1 p.2 u v hwf hp.1 hp.2,
        hiff u v, hiff u p.1, hiff v p.2, hiff u p.2, hiff v p.1]
      rw [eqvGen_congr (fun a b => (a, b) ∈ ps ++ [p])
        (fun a b => (a, b) ∈ ps ∨ (a = p.1 ∧ b = p.2))
        (by
          intro a b
          show (a, b) ∈ ps ++ [p] ↔ (a, b) ∈ ps ∨ (a = p.1 ∧ b = p.2)
          rw [List.mem_append]
          constructor
          · intro h
            rcases h with h | h
            · exact Or.inl h
            · have h2 := List.mem_singleton.mp h
              exact Or.inr ⟨by rw [← h2], by rw [← h2]⟩
          · intro h
            rcases h with h | ⟨h1, h2⟩
            · exact Or.inl h
            · right
              rw [List.mem_singleton]
              rw [h1, h2]) u v]
      rw [eqvGen_snoc (fun a b => (a, b) ∈ ps) p.1 p.2 u v]
      constructor
      · intro h
        rcases h with h | ⟨h1, h2⟩ | ⟨h1, h2⟩
        · exact Or.inl h
        · exact Or.inr (Or.inl ⟨h1, EqvGen.symm _ _ h2⟩)
        · exact Or.inr (Or.inr ⟨h1, EqvGen.symm _ _ h2⟩)
      · intro h
        rcases h with h | ⟨h1, h2⟩ | ⟨h1, h2⟩
        · exact Or.inl h
        · exact Or.inr (Or.inl ⟨h1, EqvGen.symm _ _ h2⟩)
        · exact Or.inr (Or.inr ⟨h1, EqvGen.symm _ _ h2⟩)

theorem dsFind_value_self (fuel : ℕ) (d : ℕ → ℕ) (i : ℕ) (h : 0 < fuel) :
    (dsFind fuel d i).1 i = (dsFind fuel d i).2 := by
  cases fuel with
  | zero => omega
  | succ fuel =>
    rw [dsFind]
    by_cases hr : d i = i
    · rw [if_pos hr]
      exact hr
    · rw [if_neg hr]
      exact Function.update_same i _ _

/-- Compression pass of the constructor:
`for (i = 0; i < N; ++i) disjset_find(ds, i)` (line 1145). -/
def findPass (N : ℕ) (ds : ℕ → ℕ) : ℕ → ℕ :=
  (List.range N).foldl (fun d i => (dsFind N d i).1) ds

theorem findPass_aux (N : ℕ) (ds : ℕ → ℕ) (hwf : DSWF N ds) :
    ∀ n, n ≤ N →
      DSWF N ((List.range n).foldl (fun d i => (dsFind N d i).1) ds) ∧
      (∀ y r0, rootp ((List.range n).foldl (fun d i => (dsFind N d i).1) ds) y r0 ↔
        rootp ds y r0) ∧
      (∀ i, i < n →
        ((List.range n).foldl (fun d i => (dsFind N d i).1) ds) i =
          rootAux N ds i) := by
  intro n
  induction n with
  | zero =>
    intro _
    exact ⟨hwf, fun _ _ => Iff.rfl, fun i hi => absurd hi (Nat.not_lt_zero i)⟩
  | succ n ih =>
    intro hn
    rcases ih (by omega) with ⟨hwfn, hiffn, hvaln⟩
    have hfold : (List.range (n + 1)).foldl (fun d i => (dsFind N d i).1) ds =
        (dsFind N ((List.range n).foldl (fun d i => (dsFind N d i).1) ds) n).1 := by
      rw [List.range_succ, List.foldl_append]
      rfl
    have hnN : n < N := by omega
    rcases dsFindN_spec N _ n hwfn hnN with ⟨hwf2, hiff2, hval2, hrootp2⟩
    refine ⟨by rw [hfold]; exact hwf2, ?_, ?_⟩
    · intro y r0
      rw [hfold]
      exact (hiff2 y r0).trans (hiffn y r0)
    · intro i hi
      rw [hfold]
      by_cases hin : i = n
      · subst hin
        rw [dsFind_value_self N _ i (by omega)]
        have hroot_ds : rootp ds i ((dsFind N _ i).2) :=
          (hiffn i _).mp hrootp2
        exact rootp_unique ds i _ _ hroot_ds (rootp_rootAux N ds hwf i)
      · have hi2 : i < n := by omega
        rcases hval2 i with hsame | hroot
        · rw [hsame]
          exact hvaln i hi2
        · have hroot_ds : rootp ds i _ := (hiffn i _).mp hroot
          exact rootp_unique ds i _ _ hroot_ds (rootp_rootAux N ds hwf i)

/-- First-occurrence list of the root values, as built by the
`component_label` map of the constructor (a root gets the next dense label
the first time it is seen while scanning `i = 0..N-1`). -/
def firstOcc (vals : List ℕ) : List ℕ :=
  vals.foldl (fun acc v => if v ∈ acc then acc else acc ++ [v]) []

theorem firstOcc_aux (vals : List ℕ) :
    ∀ acc : List ℕ, acc.Nodup →
      (vals.foldl (fun acc v => if v ∈ acc then acc else acc ++ [v]) acc).Nodup ∧
      ∀ x, x ∈ vals.foldl (fun acc v => if v ∈ acc then acc else acc ++ [v]) acc ↔
        (x ∈ acc ∨ x ∈ vals) := by
  induction vals with
  | nil =>
    intro acc hnd
    simp only [List.foldl_nil, List.not_mem_nil, or_false]
    exact ⟨hnd, fun _ => trivial⟩
  | cons v vals ih =>
    intro acc hnd
    simp only [List.foldl_cons]
    have hacc2 : (if v ∈ acc then acc else acc ++ [v]).Nodup := by
      by_cases hv : v ∈ acc
      · rw [if_pos hv]
        exact hnd
      · rw [if_neg hv]
        rw [List.nodup_append]
        refine ⟨hnd, List.nodup_singleton v, ?_⟩
        intro x hx hxv
        rw [List.mem_singleton] at hxv
        exact hv (hxv ▸ hx)
    have hmem2 : ∀ x, x ∈ (if v ∈ acc then acc else acc ++ [v]) ↔
        (x ∈ acc ∨ x = v) := by
      intro x
      by_cases hv : v ∈ acc
      · rw [if_pos hv]
        constructor
        · exact Or.inl
        · intro h
          rcases h with h | h
          · exact h
          · rw [h]
            exact hv
      · rw [if_neg hv]
        rw [List.mem_append, List.mem_singleton]
    rcases ih _ hacc2 with ⟨hnd3, hmem3⟩
    refine ⟨hnd3, ?_⟩
    intro x
    rw [hmem3 x, hmem2 x, List.mem_cons]
    constructor
    · intro h
      rcases h with (h | h) | h
      · exact Or.inl h
      · exact Or.inr (Or.inl h)
      · exact Or.inr (Or.inr h)
    · intro h
      rcases h with h | h | h
      · exact Or.inl (Or.inl h)
      · exact Or.inl (Or.inr h)
      · exact Or.inr h

/-- Dense component label of node `i` (lines 1147-1159): the position of its
root value in the first-occurrence order of all root values. -/
def componentLabels (N : ℕ) (ds : ℕ → ℕ) (i : ℕ) : ℕ :=
  (firstOcc ((List.range N).map ds)).indexOf (ds i)

/-- Value `num_components` = number of distinct root values. -/
def numComponentsOf (N : ℕ) (ds : ℕ → ℕ) : ℕ :=
  (firstOcc ((List.range N).map ds)).length

theorem firstOcc_nodup (vals : List ℕ) : (firstOcc vals).Nodup :=
  (firstOcc_aux vals [] List.nodup_nil).1

theorem firstOcc_mem (vals : List ℕ) (x : ℕ) :
    x ∈ firstOcc vals ↔ x ∈ vals := by
  unfold firstOcc
  rw [(firstOcc_aux vals [] List.nodup_nil).2 x]
  simp

theorem componentLabels_eq_iff (N : ℕ) (ds : ℕ → ℕ) (i k : ℕ) (hi : i < N)
    (hk : k < N) :
    componentLabels N ds i = componentLabels N ds k ↔ ds i = ds k := by
  have hmi : ds i ∈ firstOcc ((List.range N).map ds) := by
    rw [firstOcc_mem]
    exact List.mem_map.mpr ⟨i, List.mem_range.mpr hi, rfl⟩
  have hmk : ds k ∈ firstOcc ((List.range N).map ds) := by
    rw [firstOcc_mem]
    exact List.mem_map.mpr ⟨k, List.mem_range.mpr hk, rfl⟩
  exact List.indexOf_inj hmi hmk

theorem componentLabels_lt (N : ℕ) (ds : ℕ → ℕ) (i : ℕ) (hi : i < N) :
    componentLabels N ds i < numComponentsOf N ds := by
  unfold componentLabels numComponentsOf
  rw [List.indexOf_lt_length]
  rw [firstOcc_mem]
  exact List.mem_map.mpr ⟨i, List.mem_range.mpr hi, rfl⟩

theorem componentLabels_surj (N : ℕ) (ds : ℕ → ℕ) (k : ℕ)
    (hk : k < numComponentsOf N ds) :
    ∃ i, i < N ∧ componentLabels N ds i = k := by
  have hget : (firstOcc ((List.range N).map ds)).get ⟨k, hk⟩ ∈
      firstOcc ((List.range N).map ds) :=
    List.get_mem (firstOcc ((List.range N).map ds)) k hk
  have hval : (firstOcc ((List.range N).map ds)).get ⟨k, hk⟩ ∈
      (List.range N).map ds := (firstOcc_mem _ _).mp hget
  rcases List.mem_map.mp hval with ⟨i, hirange, hie⟩
  refine ⟨i, List.mem_range.mp hirange, ?_⟩
  unfold componentLabels
  rw [hie]
  have hidxlt : (firstOcc ((List.range N).map ds)).indexOf
      ((firstOcc ((List.range N).map ds)).get ⟨k, hk⟩) <
      (firstOcc ((List.range N).map ds)).length :=
    List.indexOf_lt_length.mpr hget
  have hgeteq : (firstOcc ((List.range N).map ds)).get ⟨_, hidxlt⟩ =
      (firstOcc ((List.range N).map ds)).get ⟨k, hk⟩ :=
    List.indexOf_get hidxlt
  have := (List.Nodup.get_inj_iff (firstOcc_nodup _)).mp hgeteq
  exact congrArg Fin.val this

/-- Union pairs generated by the constructor (line 1140-1143): for every
nonzero entry, `disjset_union(ds, ncol + entry->i, entry->j)` — transcript
node offset by `ncol`, fragment node at its column index. -/
def transcriptFragPairs (m : WeightMatrix) : List (ℕ × ℕ) :=
  m.triples.map (fun t => (m.ncol + t.1, t.2.1))

/-- Disjoint-set array of the constructor after the union pass over all
entries and the full compression pass. -/
def samplerDS (m : WeightMatrix) : ℕ → ℕ :=
  findPass (m.ncol + m.nrow)
    (unionPairs (m.ncol + m.nrow) (transcriptFragPairs m))

/-- Value `transcript_component[t] = ds[ncol + t]` after relabeling. -/
def transcriptComponent (m : WeightMatrix) (t : ℕ) : ℕ :=
  componentLabels (m.ncol + m.nrow) (samplerDS m) (m.ncol + t)

/-- Value `num_components` of the constructor. -/
def samplerNumComponents (m : WeightMatrix) : ℕ :=
  numComponentsOf (m.ncol + m.nrow) (samplerDS m)

/-- Edge of the bipartite transcript-fragment graph: a nonzero weight-matrix
entry links transcript node `ncol + row` to fragment node `col`. -/
def bipartiteEdge (m : WeightMatrix) (a b : ℕ) : Prop :=
  ∃ t ∈ m.triples, a = m.ncol + t.1 ∧ b = t.2.1

theorem samplerDS_root (m : WeightMatrix)
    (hbound : ∀ t ∈ m.triples, t.1 < m.nrow ∧ t.2.1 < m.ncol) :
    DSWF (m.ncol + m.nrow)
      (unionPairs (m.ncol + m.nrow) (transcriptFragPairs m)) ∧
    ∀ i, i < m.ncol + m.nrow →
      samplerDS m i = rootAux (m.ncol + m.nrow)
        (unionPairs (m.ncol + m.nrow) (transcriptFragPairs m)) i := by
  have hpairs : ∀ p ∈ transcriptFragPairs m,
      p.1 < m.ncol + m.nrow ∧ p.2 < m.ncol + m.nrow := by
    intro p hp
    rcases List.mem_map.mp hp with ⟨t, ht, he⟩
    rcases hbound t ht with ⟨h1, h2⟩
    rw [← he]
    exact ⟨by omega, by omega⟩
  have hwfU := (unionPairs_spec (m.ncol + m.nrow) (transcriptFragPairs m)
    hpairs).1
  refine ⟨hwfU, ?_⟩
  intro i hi
  exact (findPass_aux (m.ncol + m.nrow) _ hwfU (m.ncol + m.nrow)
    (Nat.le_refl _)).2.2 i hi

/-- C2: two transcripts receive the same component label iff they are
connected in the bipartite transcript-fragment graph generated by the
nonzero weight-matrix entries (transitively through shared fragments), and
the labels over all `ncol + nrow` nodes are dense sequential ids
`0..num_components-1` (every label is below `num_components`, every value
below `num_components` is attained). -/
theorem union_find_components (m : WeightMatrix)
    (hbound : ∀ t ∈ m.triples, t.1 < m.nrow ∧ t.2.1 < m.ncol)
    (t1 t2 : ℕ) (h1 : t1 < m.nrow) (h2 : t2 < m.nrow) :
    (transcriptComponent m t1 = transcriptComponent m t2 ↔
      Relation.EqvGen (bipartiteEdge m) (m.ncol + t1) (m.ncol + t2)) ∧
    (∀ i, i < m.ncol + m.nrow →
      componentLabels (m.ncol + m.nrow) (samplerDS m) i <
        samplerNumComponents m) ∧
    (∀ k, k < samplerNumComponents m →
      ∃ i, i < m.ncol + m.nrow ∧
        componentLabels (m.ncol + m.nrow) (samplerDS m) i = k) := by
  rcases samplerDS_root m hbound with ⟨hwfU, hval⟩
  have hpairs : ∀ p ∈ transcriptFragPairs m,
      p.1 < m.ncol + m.nrow ∧ p.2 < m.ncol + m.nrow := by
    intro p hp
    rcases List.mem_map.mp hp with ⟨t, ht, he⟩
    rcases hbound t ht with ⟨hb1, hb2⟩
    rw [← he]
    exact ⟨by omega, by omega⟩
  have hsame := (unionPairs_spec (m.ncol + m.nrow) (transcriptFragPairs m)
    hpairs).2
  refine ⟨?_, ?_, ?_⟩
  · have hn1 : m.ncol + t1 < m.ncol + m.nrow := by omega
    have hn2 : m.ncol + t2 < m.ncol + m.nrow := by omega
    rw [show transcriptComponent m t1 =
      componentLabels (m.ncol + m.nrow) (samplerDS m) (m.ncol + t1) from rfl]
    rw [show transcriptComponent m t2 =
      componentLabels (m.ncol + m.nrow) (samplerDS m) (m.ncol + t2) from rfl]
    rw [componentLabels_eq_iff (m.ncol + m.nrow) (samplerDS m) _ _ hn1 hn2]
    rw [hval _ hn1, hval _ hn2]
    rw [← sameRoot_iff_rootAux (m.ncol + m.nrow) _ hwfU]
    rw [hsame (m.ncol + t1) (m.ncol + t2)]
    refine eqvGen_congr _ _ ?_ _ _
    intro a b
    unfold transcriptFragPairs bipartiteEdge
    constructor
    · intro h
      rcases List.mem_map.mp h with ⟨t, ht, he⟩
      refine ⟨t, ht, ?_, ?_⟩
      · have : (m.ncol + t.1, t.2.1).1 = (a, b).1 := by rw [he]
        exact this.symm
      · have : (m.ncol + t.1, t.2.1).2 = (a, b).2 := by rw [he]
        exact this.symm
    · intro ⟨t, ht, ha, hb⟩
      refine List.mem_map.mpr ⟨t, ht, ?_⟩
      rw [ha, hb]
  · intro i hi
    exact componentLabels_lt (m.ncol + m.nrow) (samplerDS m) i hi
  · intro k hk
    exact componentLabels_surj (m.ncol + m.nrow) (samplerDS m) k hk

/-- Witness for C2 at a concrete 2-transcript, 2-column matrix whose two
transcripts share fragment column 0. -/
theorem union_find_components_witness :
    (∀ t ∈ (⟨2, 2, [[((0 : ℕ), (1 : ℚ))], [(0, 1/2)]]⟩ : WeightMatrix).triples,
      t.1 < 2 ∧ t.2.1 < 2) ∧
    (0 : ℕ) < 2 ∧ (1 : ℕ) < 2 ∧
    ((transcriptComponent ⟨2, 2, [[((0 : ℕ), (1 : ℚ))], [(0, 1/2)]]⟩ 0 =
        transcriptComponent ⟨2, 2, [[((0 : ℕ), (1 : ℚ))], [(0, 1/2)]]⟩ 1 ↔
      Relation.EqvGen
        (bipartiteEdge ⟨2, 2, [[((0 : ℕ), (1 : ℚ))], [(0, 1/2)]]⟩)
        (2 + 0) (2 + 1)) ∧
    (∀ i, i < 2 + 2 →
      componentLabels (2 + 2)
          (samplerDS ⟨2, 2, [[((0 : ℕ), (1 : ℚ))], [(0, 1/2)]]⟩) i <
        samplerNumComponents ⟨2, 2, [[((0 : ℕ), (1 : ℚ))], [(0, 1/2)]]⟩) ∧
    (∀ k, k < samplerNumComponents ⟨2, 2, [[((0 : ℕ), (1 : ℚ))], [(0, 1/2)]]⟩ →
      ∃ i, i < 2 + 2 ∧
        componentLabels (2 + 2)
          (samplerDS ⟨2, 2, [[((0 : ℕ), (1 : ℚ))], [(0, 1/2)]]⟩) i = k)) :=
  ⟨by decide, by decide, by decide,
    union_find_components ⟨2, 2, [[((0 : ℕ), (1 : ℚ))], [(0, 1/2)]]⟩
      (by decide) 0 1 (by decide) (by decide)⟩

end Isolator
